import Mathlib

/-!
Shallow embedding of `base_topo.py` (datacenter_topologies repository).

The Python program is an object graph mutated in place; the embedding
represents the whole object graph as one `Graph` state value and renders
each method as a state-passing function.  Python object identity of
`Edge` instances is modelled by a per-graph counter `nextEid` stamped
into each created edge; object identity of `Node` instances is modelled
by the node id string (node ids are unique in every graph built through
`add_node`, which is the only constructor the source uses).  Operations
that can raise a Python exception (`list.index` misses, out-of-range
indexing, `TypeError`) return `none` / an error value at exactly the
program points where the source would raise.
-/

/-- Python `sys.maxsize` on a 64-bit CPython build, the "infinite" distance
sentinel used by both Dijkstra solvers. -/
def maxsize : Nat := 9223372036854775807

/-- Python `list.index` restricted to the successful/`ValueError` outcome:
first index of `x`, `none` when absent (where CPython raises). -/
def pyIndex : List String → String → Option Nat
  | [], _ => none
  | y :: ys, x => if y == x then some 0 else (pyIndex ys x).map (· + 1)

/-- Association-list rendering of a Python `dict` keyed by strings:
lookup of the first (unique) entry for a key. -/
def aGet {α : Type} (m : List (String × α)) (k : String) : Option α :=
  (m.find? (fun p => p.1 == k)).map (·.2)

/-- Dict lookup with a default, the reading discipline of a
`defaultdict` / `dict.get`. -/
def aGetD {α : Type} (m : List (String × α)) (k : String) (d : α) : α :=
  (aGet m k).getD d

/-- Dict store `m[k] = v`: replace the entry in place if the key exists,
append a new entry otherwise. -/
def aSet {α : Type} : List (String × α) → String → α → List (String × α)
  | [], k, v => [(k, v)]
  | (k', v') :: rest, k, v =>
    if k' == k then (k, v) :: rest else (k', v') :: aSet rest k v

/-- Source `class Edge`: one link object.  `lnode`/`rnode` hold the endpoint
node ids (Python holds the node objects); `eid` models the object's
identity. -/
structure Edge where
  eid : Nat
  lnode : String
  rnode : String
deriving DecidableEq, Repr

/-- Source `class Node`: id, type tag, and the incident-edge list `self.edges`. -/
structure Node where
  id : String
  type : String
  edges : List Edge
deriving DecidableEq, Repr

/-- Source `Node.add_edge(self, node)` creates a fresh `Edge` with
`lnode = self`, `rnode = node` and appends it to `self.edges` only.
`eid` is the fresh identity supplied by the caller. -/
def Node.add_edge (n : Node) (eid : Nat) (otherId : String) : Node × Edge :=
  let e : Edge := { eid := eid, lnode := n.id, rnode := otherId }
  ({ n with edges := n.edges ++ [e] }, e)

/-- Source `Node.is_neighbor(self, node)`: scan the incident edges for one whose
`lnode` or `rnode` is the given node (Python compares node objects;
here, ids). -/
def Node.is_neighbor (n : Node) (otherId : String) : Bool :=
  n.edges.any (fun e => e.lnode == otherId || e.rnode == otherId)

/-- Observer notifications of the `Composable` interface.
Modelled from the spec: the observer objects themselves live outside
this repository; the spec says mutations notify every registered
observer in order, so the model records one event per registered
observer id. -/
inductive GEvent
  | nodeAdded (id : String)
  | edgeAdded (a b : String)
  | edgeRemoved (a b : String)
deriving DecidableEq, Repr

/-- Errors raised by the store (`exceptions` module of the repository,
which is outside `src/`; the two constructors mirror the two imported
exception classes). -/
inductive TopoError
  | duplicateNodeName
  | nodeTypeNotFound
deriving DecidableEq, Repr

/-- Source `class Graph`: the topology store.  Fields mirror `Graph.__init__`;
`nextEid` supplies edge identities and `events` is the recorded
observer-notification log. -/
structure Graph where
  graph_name : String
  composables : List Nat
  nodes : List Node
  node_names : List String
  edges : List Edge
  adjacency_matrix : Option (List (List (Option Nat)))
  nextEid : Nat
  events : List (Nat × GEvent)
deriving Repr

/-- The `Graph(name)` constructor (`Graph.__init__`). -/
def Graph.init (name : String) : Graph :=
  { graph_name := name, composables := [], nodes := [], node_names := [],
    edges := [], adjacency_matrix := none, nextEid := 0, events := [] }

/-- One mutation notifying every registered observer, in registration
order (`for c in self.composables: c.<event>`). -/
def Graph.notifyAll (g : Graph) (ev : GEvent) : List (Nat × GEvent) :=
  g.events ++ g.composables.map (fun c => (c, ev))

/-- Source `Graph.add_node(n, t)`: raise `DuplicateNodeNameException` when the
name is already indexed (before any mutation); otherwise create the
node, append it to `nodes` and `node_names`, notify observers and
return it. -/
def Graph.add_node (g : Graph) (n t : String) : Graph × Except TopoError Node :=
  if n ∈ g.node_names then
    (g, .error .duplicateNodeName)
  else
    let nd : Node := { id := n, type := t, edges := [] }
    ({ g with nodes := g.nodes ++ [nd],
              node_names := g.node_names ++ [n],
              events := g.notifyAll (.nodeAdded n) },
     .ok nd)

/-- Source `Graph.get_node_by_id(id)`: linear scan, first node whose id
matches, `None` otherwise. -/
def Graph.get_node_by_id (g : Graph) (id : String) : Option Node :=
  g.nodes.find? (fun n => n.id == id)

/-- Source `Graph.add_edge(n1, n2)`: resolve both endpoints through
`node_names.index` (a miss raises `ValueError`, rendered `none`), let
the left node create an edge to the right one, let the right node create
a second edge back, append only the first edge object to the global
edge list, notify observers. -/
def Graph.add_edge (g : Graph) (n1 n2 : String) : Option Graph := do
  let i1 ← pyIndex g.node_names n1
  let i2 ← pyIndex g.node_names n2
  let n_1 ← g.nodes[i1]?
  let n_2 ← g.nodes[i2]?
  let r1 := n_1.add_edge g.nextEid n_2.id
  let nodes1 := g.nodes.set i1 r1.1
  let m2 ← nodes1[i2]?
  let r2 := m2.add_edge (g.nextEid + 1) n_1.id
  let nodes2 := nodes1.set i2 r2.1
  some { g with nodes := nodes2,
                edges := g.edges ++ [r1.2],
                nextEid := g.nextEid + 2,
                events := g.notifyAll (.edgeAdded n1 n2) }

/-- Replace the first node carrying the given id (the object
`get_node_by_id` style scans reach first) by `f` of it. -/
def updateFirstNode : List Node → String → (Node → Node) → List Node
  | [], _, _ => []
  | m :: rest, nId, f =>
    if m.id == nId then f m :: rest else m :: updateFirstNode rest nId f

/-- Source `Graph.remove_edge(n, t)`: among `n`'s incident edges find the first
one directed `n → t`; if found, detach it from `n`'s list only (Python
`list.remove`); notify observers in every case. -/
def Graph.remove_edge (g : Graph) (nId tId : String) : Graph :=
  let g' :=
    match g.get_node_by_id nId with
    | none => g
    | some n =>
      match n.edges.find? (fun e : Edge => e.rnode == tId && e.lnode == nId) with
      | none => g
      | some e =>
        { g with nodes := updateFirstNode g.nodes nId
                            (fun m => { m with edges := m.edges.erase e }) }
  { g' with events := g'.notifyAll (.edgeRemoved nId tId) }

/-- Source `Graph.create_nodes_from_array(arr)`: entries are `(id, attrs)`
pairs; only the `'type'` key of the attribute dict is read, so an entry
is modelled as `(id, Option type)`.  A missing type raises
`NodeTypeNotFoundException` before that entry's insertion; a duplicate
id raises from `add_node`.  The pair result carries the (partially
mutated) store together with the raised exception, if any. -/
def Graph.create_nodes_from_array (g : Graph) :
    List (String × Option String) → Graph × Option TopoError
  | [] => (g, none)
  | (n, t?) :: rest =>
    match t? with
    | none => (g, some .nodeTypeNotFound)
    | some t =>
      match g.add_node n t with
      | (g', .ok _) => g'.create_nodes_from_array rest
      | (g', .error e) => (g', some e)

/-- Incident-edge list of the node carrying an id (empty when no such
node exists); the reading `node.edges` of the current object state. -/
def nodeEdges (g : Graph) (id : String) : List Edge :=
  match g.get_node_by_id id with
  | some n => n.edges
  | none => []

/-- Whether the node carrying `a` currently lists `b` as a neighbor,
`Node.is_neighbor` read off the current store. -/
def connectedNow (g : Graph) (a b : String) : Bool :=
  match g.get_node_by_id a with
  | some n => n.is_neighbor b
  | none => false

/-- Store well-formedness: the name index is exactly the id column of
the node list.  Every graph the source builds (all mutation goes through
`add_node` / `add_edge` / `remove_edge`) satisfies this. -/
def WF (g : Graph) : Prop :=
  g.node_names = g.nodes.map (·.id)

/-- Python `str.startswith(p)`, written over the character lists so
that it evaluates by reduction (the library `String.startsWith` is an
opaque byte-position loop). -/
def pyStartsWith (s p : String) : Bool :=
  p.data.isPrefixOf s.data

/-- Source `get_all_hosts`: nodes whose name starts with `'h'`, fetched by
their enumeration index, in store order. -/
def Graph.get_all_hosts (g : Graph) : List Node :=
  ((g.node_names.enum.filter (fun p => pyStartsWith p.2 "h")).filterMap
    (fun p => g.nodes[p.1]?))

/-- Adjacency entry: the matrix holds `1` for neighbors and
`float('inf')` otherwise; `none` renders the infinity. -/
abbrev AdjVal := Option Nat

/-- Source `Graph.generate_adjancency_matrix`: return the cache when present,
else build the NxN matrix (`adj[i][j] = 1` iff `nodes[i].is_neighbor(nodes[j])`,
infinity otherwise), store it in the cache and return it. -/
def Graph.generate_adjancency_matrix (g : Graph) : List (List AdjVal) × Graph :=
  match g.adjacency_matrix with
  | some adj => (adj, g)
  | none =>
    let n := g.nodes.length
    let adj := (List.range n).map (fun i =>
      (List.range n).map (fun j =>
        match g.nodes[i]?, g.nodes[j]? with
        | some ni, some nj => if ni.is_neighbor nj.id then some 1 else none
        | _, _ => none))
    (adj, { g with adjacency_matrix := some adj })

/-- One outer iteration count of the SPT solver's main loop
(`for _ in range(len(self.nodes))`).  The min-scan mirrors
`if dist[u] < min_val and sptSet[u] == False` with a running minimum
starting at `sys.maxsize`.  When `min_idx` stays `None` the relaxation
loop evaluates `adj_mat[None][y]`, a `TypeError` in Python, rendered
`none` (the relaxation loop body runs whenever the node count is
positive, which holds whenever this function is reached).  The source's
relaxation guard `adj_mat[min_idx][y] > 0` is true for both `1` and
`inf`; for an `inf` entry the final comparison
`dist[y] > dist[min_idx] + inf` is false (no int exceeds `float('inf')`),
so an `inf` entry never relaxes: the `none` arm returns `dist`
unchanged. -/
def sptLoop (adj : List (List AdjVal)) (n : Nat) :
    List Nat → List Bool → Nat → Option (List Nat)
  | dist, _, 0 => some dist
  | dist, sptSet, iter + 1 =>
    let scan := (List.range n).foldl
      (fun (acc : Option Nat × Nat) u =>
        if dist.getD u 0 < acc.2 && !(sptSet.getD u false) then
          (some u, dist.getD u 0)
        else acc)
      (none, maxsize)
    match scan.1 with
    | none => none
    | some m =>
      let sptSet := sptSet.set m true
      let dist := (List.range n).foldl
        (fun dist y =>
          match (adj.getD m []).getD y none with
          | none => dist
          | some w =>
            if !(sptSet.getD y false) && dist.getD m 0 != maxsize
                && dist.getD y 0 > dist.getD m 0 + w then
              dist.set y (dist.getD m 0 + w)
            else dist)
        dist
      sptLoop adj n dist sptSet iter

/-- Source `Graph.compute_dijikstra_using_spt(src, dst)`: resolve the two
indices (`ValueError` on a miss), build/fetch the adjacency matrix,
run `len(nodes)` rounds of settle-and-relax, and return `dist[dst_idx]`.
The pair carries the store because the matrix cache is written on first
use; `none` in the second component marks a raised exception. -/
def Graph.compute_dijikstra_using_spt (g : Graph) (srcId dstId : String) :
    Graph × Option Nat :=
  match pyIndex g.node_names srcId, pyIndex g.node_names dstId with
  | some src_idx, some dst_idx =>
    let (adj, g) := g.generate_adjancency_matrix
    let n := g.nodes.length
    let dist := (List.replicate n maxsize).set src_idx 0
    match sptLoop adj n dist (List.replicate n false) n with
    | none => (g, none)
    | some dist' => (g, dist'[dst_idx]?)
  | _, _ => (g, none)

/-!
CPython `heapq` on `(distance, node)` pairs.  `Node.__lt__` returns
`self`, a truthy object, so the effective boolean of `t1 < t2` for
tuples `t1 = (d1, n1)`, `t2 = (d2, n2)` is: `d1 < d2` when the
distances differ, `False` when the tuples are identical (equal distance,
same node object), and `True` otherwise (equal distance, distinct
nodes).  Node objects are compared by id here (ids are unique in graphs
built through `add_node`).
-/

/-- The heap item: tentative distance plus the node (by id). -/
abbrev HItem := Nat × String

/-- Effective truth value of `a < b` under the source's degenerate
`Node.__lt__`. -/
def pyLt (a b : HItem) : Bool :=
  if a.1 == b.1 then !(a.2 == b.2) else a.1 < b.1

/-- CPython `heapq._siftdown(heap, startpos, pos)` with `newitem` the element
read at `pos` on entry: bubble the new leaf towards the root while it
compares below its parent.  The loop index `pos` strictly decreases, so
the `pos`-many steps of the structural counter are never exhausted: when
the counter hits `0` the position is `0 ≤ startpos` and both arms place
`newitem` at `pos` exactly as the loop exit does. -/
def siftdownGo (startpos : Nat) (newitem : HItem) :
    Nat → List HItem → Nat → List HItem
  | 0, heap, pos => heap.set pos newitem
  | fuel + 1, heap, pos =>
    if startpos < pos then
      let parentpos := (pos - 1) / 2
      let parent := heap.getD parentpos (0, "")
      if pyLt newitem parent then
        siftdownGo startpos newitem fuel (heap.set pos parent) parentpos
      else heap.set pos newitem
    else heap.set pos newitem

/-- CPython `heapq._siftdown`. -/
def siftdown (startpos : Nat) (newitem : HItem) (heap : List HItem) (pos : Nat) :
    List HItem :=
  siftdownGo startpos newitem pos heap pos

/-- The descending phase of `heapq._siftup`: move the smaller child up
into the hole until the hole reaches a leaf; returns the heap and the
final hole position.  The hole position strictly increases and stays
below `endpos`, so the `endpos`-many steps of the structural counter
are never exhausted: at counter `0` the position is at least `endpos`
and both arms stop exactly as the loop exit does. -/
def siftupLoopGo (endpos : Nat) : Nat → List HItem → Nat → List HItem × Nat
  | 0, heap, pos => (heap, pos)
  | fuel + 1, heap, pos =>
    let childpos := 2 * pos + 1
    if childpos < endpos then
      let rightpos := childpos + 1
      let childpos :=
        if rightpos < endpos
            && !(pyLt (heap.getD childpos (0, "")) (heap.getD rightpos (0, ""))) then
          rightpos
        else childpos
      let heap := heap.set pos (heap.getD childpos (0, ""))
      siftupLoopGo endpos fuel heap childpos
    else (heap, pos)

/-- The descending phase of `heapq._siftup`. -/
def siftupLoop (endpos : Nat) (heap : List HItem) (pos : Nat) :
    List HItem × Nat :=
  siftupLoopGo endpos endpos heap pos

/-- CPython `heapq._siftup(heap, pos)`: read `newitem` at `pos`, sink the hole
to a leaf, place `newitem` there and sift it back up. -/
def siftup (heap : List HItem) (pos : Nat) : List HItem :=
  let endpos := heap.length
  let newitem := heap.getD pos (0, "")
  let (heap, pos') := siftupLoop endpos heap pos
  siftdown pos newitem (heap.set pos' newitem) pos'

/-- CPython `heapq.heappush`. -/
def heappush (heap : List HItem) (item : HItem) : List HItem :=
  siftdown 0 item (heap ++ [item]) heap.length

/-- CPython `heapq.heappop`: pop the last element; if the heap is still
non-empty, move it into the root position and sift up.  `none` on the
empty heap (where CPython raises `IndexError`; the solver's `while`
guard makes that unreachable). -/
def heappop (heap : List HItem) : Option (HItem × List HItem) :=
  match heap.getLast? with
  | none => none
  | some lastelt =>
    let heap := heap.dropLast
    if heap.isEmpty then some (lastelt, [])
    else some (heap.getD 0 (0, ""), siftup (heap.set 0 lastelt) 0)

/-- Relaxation of one incident edge inside the pop-processing loop of
`compute_dijkstra_using_heap`: skip targets already in `visited`,
otherwise compare `distance[node.id] + 1` against the target's current
tentative distance (`defaultdict` default `sys.maxsize`) and on strict
improvement update the distance, record the predecessor and push. -/
def relaxEdge (nodeId : String) (visited : List String)
    (st : List HItem × List (String × Nat) × List (String × String))
    (e : Edge) : List HItem × List (String × Nat) × List (String × String) :=
  let (pq, dist, prev) := st
  if e.rnode ∈ visited then st
  else
    let newd := aGetD dist nodeId maxsize + 1
    if aGetD dist e.rnode maxsize > newd then
      (heappush pq (newd, e.rnode), aSet dist e.rnode newd, aSet prev e.rnode nodeId)
    else st

/-- The `while priority_queue:` loop of `compute_dijkstra_using_heap`.
Each round pops the minimum, adds the node to `visited`, and folds
`relaxEdge` over the node's current incident edges (read off the store,
as the shared mutable node object is in Python).  The loop's
termination is not structural, so it carries fuel; `none` reports fuel
exhaustion and concrete runs are given ample fuel. -/
def dijkstraLoop (g : Graph) :
    Nat → List HItem → List String → List (String × Nat) →
    List (String × String) → Option (List (String × Nat) × List (String × String))
  | 0, _, _, _, _ => none
  | fuel + 1, pq, visited, dist, prev =>
    match heappop pq with
    | none => some (dist, prev)
    | some ((_, nodeId), pq) =>
      let visited := if nodeId ∈ visited then visited else visited ++ [nodeId]
      let (pq, dist, prev) :=
        (nodeEdges g nodeId).foldl (relaxEdge nodeId visited) (pq, dist, prev)
      dijkstraLoop g fuel pq visited dist prev

/-- Source `Graph.compute_dijkstra_using_heap(src)`: distances default to
`sys.maxsize`, the source gets distance `0` and is pushed with priority
`0`; returns the distance mapping and the predecessor mapping.  (The
`dst` parameter of the source is unused by the body.) -/
def computeDijkstraUsingHeap (g : Graph) (src : String) (fuel : Nat) :
    Option (List (String × Nat) × List (String × String)) :=
  dijkstraLoop g fuel (heappush [] (0, src)) [] [(src, 0)] []

/-- The `while True` walk of `Graph.path(previous, node_start, node_end)`:
append the current node; stop when it has no predecessor; when its
predecessor is the source, append the source and stop; otherwise step to
the predecessor.  The route is reversed on exit.  Fueled because a
cyclic predecessor map would loop forever in Python. -/
def pathWalk (previous : List (String × String)) (node_start : String) :
    Nat → String → List String → Option (List String)
  | 0, _, _ => none
  | fuel + 1, node_curr, route =>
    let route := route ++ [node_curr]
    match aGet previous node_curr with
    | none => some route.reverse
    | some p =>
      if p == node_start then some ((route ++ [node_start]).reverse)
      else pathWalk previous node_start fuel p route

/-- Source `Graph.path`. -/
def Graph.path (previous : List (String × String)) (node_start node_end : String)
    (fuel : Nat) : Option (List String) :=
  pathWalk previous node_start fuel node_end []

/-- One entry of Yen's accepted/candidate lists: the `{'cost': ..,
'path': ..}` dict. -/
structure PathEntry where
  cost : Nat
  path : List String
deriving DecidableEq, Repr

/-- Stable ascending insertion by cost; `sortedByCost` below renders
Python's stable `sorted(B, key=itemgetter('cost'))` (the stable
ascending ordering is unique, so any stable sort is the same
function). -/
def insertByCost (x : PathEntry) : List PathEntry → List PathEntry
  | [] => [x]
  | y :: ys => if y.cost < x.cost then y :: insertByCost x ys else x :: y :: ys

/-- Python `sorted(B, key=itemgetter('cost'))`. -/
def sortedByCost : List PathEntry → List PathEntry
  | [] => []
  | x :: xs => insertByCost x (sortedByCost xs)

/-- The edge-removal loop of one spur position of `compute_yen_ksp`:
`for path_k in A:` remove the edge `(curr_path[i], curr_path[i+1])`
whenever `curr_path` is longer than `i` and shares the exact root
prefix, recording the endpoint pair in `edges_removed` (the recording
happens whether or not an actual edge was found to detach).
`curr_path[i+1]` raises `IndexError` when the path has exactly `i+1`
nodes, rendered `none`. -/
def yenRemovePhase (i : Nat) (path_root : List String) :
    Graph → List PathEntry → List (String × String) →
    Option (Graph × List (String × String))
  | g, [], acc => some (g, acc)
  | g, path_k :: rest, acc =>
    let curr := path_k.path
    if i < curr.length && curr.take (i + 1) == path_root then
      match curr[i]?, curr[i + 1]? with
      | some u, some v =>
        yenRemovePhase i path_root (g.remove_edge u v) rest (acc ++ [(u, v)])
      | _, _ => none
    else yenRemovePhase i path_root g rest acc

/-- The restore loop `for edge in edges_removed:
self.add_edge(edge[0].id, edge[1].id)`. -/
def yenRestorePhase : Graph → List (String × String) → Option Graph
  | g, [] => some g
  | g, (u, v) :: rest => do
    let g ← g.add_edge u v
    yenRestorePhase g rest

/-- One spur position `i` of one Yen iteration: pick the spur node and
root prefix off the last accepted path, remove the overlapping edges,
run the heap solver from the spur node, splice
`path_root[:-1] + spur path` into a candidate costed by
`distances[spur] + spur-run distance at the destination`, append it to
`B` unless already present, and restore the removed edges. -/
def yenSpurStep (fuel : Nat) (distances : List (String × Nat)) (node_end : String)
    (A : List PathEntry) (current : List String) (i : Nat)
    (g : Graph) (B : List PathEntry) : Option (Graph × List PathEntry) := do
  let node_spur ← current[i]?
  let path_root := current.take (i + 1)
  let rm ← yenRemovePhase i path_root g A []
  let dj ← computeDijkstraUsingHeap rm.1 node_spur fuel
  let spurP ← Graph.path dj.2 node_spur node_end fuel
  let path_total := path_root.dropLast ++ spurP
  let dist_total := aGetD distances node_spur maxsize + aGetD dj.1 node_end maxsize
  let potential_k : PathEntry := ⟨dist_total, path_total⟩
  let B := if potential_k ∈ B then B else B ++ [potential_k]
  let g2 ← yenRestorePhase rm.1 rm.2
  return (g2, B)

/-- The loop `for i in range(0, len(current_path) - 1):` over the spur
positions. -/
def yenSpurFold (fuel : Nat) (distances : List (String × Nat)) (node_end : String)
    (A : List PathEntry) (current : List String) :
    Graph → List PathEntry → List Nat → Option (Graph × List PathEntry)
  | g, B, [] => some (g, B)
  | g, B, i :: is => do
    let st ← yenSpurStep fuel distances node_end A current i g B
    yenSpurFold fuel distances node_end A current st.1 st.2 is

/-- The loop `for k in range(1, max_k):` — each round reads the last accepted
path, walks every spur position, then either moves the cheapest
candidate of `B` into `A` (stable sort, pop index 0) or breaks when `B`
is empty. -/
def yenKLoop (fuel : Nat) (distances : List (String × Nat)) (node_end : String) :
    Nat → Graph → List PathEntry → List PathEntry →
    Option (Graph × List PathEntry)
  | 0, g, A, _ => some (g, A)
  | iters + 1, g, A, B => do
    let last ← A.getLast?
    let current := last.path
    let st ← yenSpurFold fuel distances node_end A current g B
               (List.range (current.length - 1))
    match sortedByCost st.2 with
    | [] => some (st.1, A)
    | b0 :: Brest => yenKLoop fuel distances node_end iters st.1 (A ++ [b0]) Brest

/-- Source `Graph.compute_yen_ksp(node_start, node_end, max_k)`: seed `A` with
the single-source shortest path and its cost; return early when that
path is empty; otherwise run `max_k - 1` Yen iterations.  The result
pairs the final store state with the accepted list `A`. -/
def Graph.compute_yen_ksp (g : Graph) (fuel : Nat) (node_start node_end : String)
    (max_k : Nat) : Option (Graph × List PathEntry) := do
  let dj ← computeDijkstraUsingHeap g node_start fuel
  let p0 ← Graph.path dj.2 node_start node_end fuel
  let A : List PathEntry := [⟨aGetD dj.1 node_end maxsize, p0⟩]
  if p0.isEmpty then return (g, A)
  yenKLoop fuel dj.1 node_end (max_k - 1) g A []

/-- One target handled by `processInput` in
`compute_dijikstra_for_all_hosts`: consult the memo under both key
orientations; on a hit append the memoized distance, otherwise run the
heap solver from `hosts[idx]`, memoize the distance to `rem` under
`"idx:rem"` and append it.  Exactly one value is appended per remaining
host. -/
def processLoop (g : Graph) (fuel : Nat) (hi : Node) :
    List Node → List Nat → List (String × Nat) →
    Option (List Nat × List (String × Nat))
  | [], t_res, memo => some (t_res, memo)
  | rem :: rest, t_res, memo =>
    let k1 := hi.id ++ ":" ++ rem.id
    let k2 := rem.id ++ ":" ++ hi.id
    match aGet memo k1 with
    | some v => processLoop g fuel hi rest (t_res ++ [v]) memo
    | none =>
      match aGet memo k2 with
      | some v => processLoop g fuel hi rest (t_res ++ [v]) memo
      | none => do
        let dj ← computeDijkstraUsingHeap g hi.id fuel
        let d := aGetD dj.1 rem.id maxsize
        processLoop g fuel hi rest (t_res ++ [d]) (aSet memo k1 d)

/-- Source `processInput(idx)`: the unit of work for host index `idx`, applied
to the hosts other than `idx` (`hosts[0:idx] + hosts[idx+1:]`). -/
def processInput (g : Graph) (fuel : Nat) (hosts : List Node) (idx : Nat)
    (memo : List (String × Nat)) : Option (List Nat × List (String × Nat)) := do
  let hi ← hosts[idx]?
  processLoop g fuel hi (hosts.take idx ++ hosts.drop (idx + 1)) [] memo

/-- Units of work in index order sharing the memo dictionary, results
concatenated.  (The source dispatches the units onto a joblib thread
pool and flattens the per-unit lists in index order; the memo is a
`Manager` dict shared by all units.  The sequential index-order
schedule is the deterministic rendering.) -/
def allHostsGo (g : Graph) (fuel : Nat) (hosts : List Node) :
    List Nat → List (String × Nat) → List Nat → Option (List Nat)
  | [], _, accRes => some accRes
  | idx :: idxs, memo, accRes => do
    let (t, memo') ← processInput g fuel hosts idx memo
    allHostsGo g fuel hosts idxs memo' (accRes ++ t)

/-- Source `Graph.compute_dijikstra_for_all_hosts()`: one unit of work per host
index, flat list of all appended distances. -/
def Graph.compute_dijikstra_for_all_hosts (g : Graph) (fuel : Nat) :
    Option (List Nat) :=
  let hosts := g.get_all_hosts
  allHostsGo g fuel hosts (List.range hosts.length) [] []

/-- The collection loop of `get_ecmp_paths` over `all_paths[1:]`:
append a path when its node-sequence length equals the shortest path's,
then break as soon as the collection size equals
`required_path_count`. -/
def ecmpLoop (shortest : PathEntry) (required : Nat) :
    List PathEntry → List PathEntry → List PathEntry
  | [], acc => acc
  | p :: ps, acc =>
    let acc := if p.path.length == shortest.path.length then acc ++ [p] else acc
    if acc.length == required then acc else ecmpLoop shortest required ps acc

/-- Source `Graph.get_ecmp_paths(host_pair, computed_paths, required_path_count)`
(the method reads nothing from `self`): a missing pair key is caught
(`KeyError` → `[]`); an empty ranked list raises an uncaught
`IndexError` at `all_paths[0]`, rendered `none`. -/
def Graph.get_ecmp_paths (computed_paths : List (String × List PathEntry))
    (aId bId : String) (required_path_count : Nat) : Option (List PathEntry) :=
  match aGet computed_paths (aId ++ ":" ++ bId) with
  | none => some []
  | some [] => none
  | some (shortest :: rest) => some (ecmpLoop shortest required_path_count rest [])

/-- Source `Graph.calculate_centrality(computed_paths)`: count, per node id
starting with `'s'`, its occurrences across all path entries of all
values. -/
def Graph.calculate_centrality (computed_paths : List (String × List PathEntry)) :
    List (String × Nat) :=
  computed_paths.foldl
    (fun acc kv =>
      kv.2.foldl
        (fun acc pe =>
          pe.path.foldl
            (fun acc nid =>
              if pyStartsWith nid "s" then aSet acc nid (aGetD acc nid 0 + 1)
              else acc)
            acc)
        acc)
    acc₀
where acc₀ : List (String × Nat) := []

/-- Builder shorthand: `add_node` discarding the returned node (the
construction sites in the repository ignore it). -/
def addNodeD (g : Graph) (n t : String) : Graph := (g.add_node n t).1

/-- Builder shorthand: `add_edge` on names known to be present. -/
def addEdgeD (g : Graph) (a b : String) : Graph := (g.add_edge a b).getD g

/-- Three nodes `a`, `b`, `c` with the single edge `a-b`; `c` is
isolated (so `b` is reachable from `a` but `c` is not). -/
def gIso : Graph :=
  addEdgeD (addNodeD (addNodeD (addNodeD (Graph.init "iso") "a" "host") "b" "host") "c" "host") "a" "b"

/-- The chain `a - b - c`. -/
def gChain : Graph :=
  addEdgeD (addEdgeD (addNodeD (addNodeD (addNodeD (Graph.init "chain") "a" "host") "b" "host") "c" "host") "a" "b") "b" "c"

/-- Two connected hosts `h1 - h2`. -/
def gHosts : Graph :=
  addEdgeD (addNodeD (addNodeD (Graph.init "hosts") "h1" "host") "h2" "host") "h1" "h2"

/-- Two isolated nodes `a`, `b`. -/
def gTwoIso : Graph :=
  addNodeD (addNodeD (Graph.init "twoiso") "a" "host") "b" "host"

/-- The store state `compute_yen_ksp` leaves behind on the chain run
used below (the restore loop has re-added edges and even created a
fresh `a-c` edge that never existed). -/
def c2FinalGraph : Graph :=
  ((gChain.compute_yen_ksp 100 "a" "c" 4).getD (Graph.init "", [])).1

/-- The distance map of the initial heap-solver run on `gChain` from
`a`. -/
def c2Dists : List (String × Nat) := [("a", 0), ("b", 1), ("c", 2)]

/-- The accepted list after the initial shortest path on `gChain`. -/
def c3A : List PathEntry := [⟨2, ["a", "b", "c"]⟩]

/-- Store state after the edge-removal loop of spur position 0 on
`gChain`. -/
def c3G1 : Graph :=
  ((yenRemovePhase 0 ["a"] gChain c3A []).getD (Graph.init "", [])).1

/-- The endpoint pairs recorded in `edges_removed` there. -/
def c3Removed : List (String × String) :=
  ((yenRemovePhase 0 ["a"] gChain c3A []).getD (Graph.init "", [])).2

/-- Store state after the restore loop re-adds them. -/
def c3G2 : Graph := (yenRestorePhase c3G1 c3Removed).getD (Graph.init "")

/-- Store state after one full spur step (position 0) on `gChain`. -/
def c2StepG : Graph :=
  ((yenSpurStep 100 c2Dists "c" c3A ["a", "b", "c"] 0 gChain []).getD
    (Graph.init "", [])).1

/-- Two isolated nodes with one edge `a-b` added: the smallest store on
which `add_edge`'s twin-object behavior is visible. -/
def gPair : Graph := (gTwoIso.add_edge "a" "b").getD (Graph.init "")

/-- The node object `a` of `gChain`. -/
def c9N : Node := (gChain.get_node_by_id "a").getD ⟨"", "", []⟩

/-- The first `a → b` edge in its incident list. -/
def c9E : Edge :=
  (c9N.edges.find? (fun e : Edge => e.rnode == "b" && e.lnode == "a")).getD ⟨0, "", ""⟩

/-- The store `gChain` after `remove_edge(a, b)`. -/
def c9G1 : Graph := gChain.remove_edge "a" "b"

/-- The same store after the subsequent `add_edge(a, b)`. -/
def c9G2 : Graph := (c9G1.add_edge "a" "b").getD (Graph.init "")

/-- The heap-solver output on the two isolated nodes from `a`. -/
def c6Run : List (String × Nat) × List (String × String) :=
  (computeDijkstraUsingHeap gTwoIso "a" 100).getD ([], [])

/-- Store state after bulk construction stops at a missing-type
entry. -/
def c10G : Graph :=
  ((Graph.init "w").create_nodes_from_array [("a", some "h")]).1

/-- A ranked-path collection with two equal-length paths for `a:b`,
exercising `get_ecmp_paths`. -/
def c7Map : List (String × List PathEntry) :=
  [("a:b", [⟨2, ["a", "x", "b"]⟩, ⟨2, ["a", "y", "b"]⟩])]

/-!  Basic facts about the dict / index helpers. -/

theorem aGet_aSet_self {α : Type} (m : List (String × α)) (k : String) (v : α) :
    aGet (aSet m k v) k = some v := by
  induction m with
  | nil => simp [aSet, aGet]
  | cons p rest ih =>
    obtain ⟨k', v'⟩ := p
    by_cases h : k' = k
    · simp [aSet, aGet, h]
    · rw [aSet, if_neg (by simpa using h), aGet,
        List.find?_cons_of_neg _ (by simpa using h)]
      exact ih

theorem aGet_aSet_ne {α : Type} (m : List (String × α)) (k k' : String) (v : α)
    (h : k' ≠ k) : aGet (aSet m k v) k' = aGet m k' := by
  induction m with
  | nil => simp [aSet, aGet, List.find?_cons_of_neg, Ne.symm h]
  | cons p rest ih =>
    obtain ⟨k1, v1⟩ := p
    by_cases h1 : k1 = k
    · subst h1
      rw [aSet, if_pos (by simp), aGet, aGet,
        List.find?_cons_of_neg _ (by simpa using (Ne.symm h)),
        List.find?_cons_of_neg _ (by simpa using fun hh : k1 = k' => h (hh ▸ rfl))]
    · rw [aSet, if_neg (by simpa using h1)]
      by_cases h2 : k1 = k'
      · subst h2
        rw [aGet, aGet, List.find?_cons_of_pos _ (by simp),
          List.find?_cons_of_pos _ (by simp)]
      · rw [aGet, aGet, List.find?_cons_of_neg _ (by simpa using h2),
          List.find?_cons_of_neg _ (by simpa using h2)]
        exact ih

theorem mem_of_aGet_eq_some {α : Type} {m : List (String × α)} {k : String} {v : α}
    (h : aGet m k = some v) : (k, v) ∈ m := by
  unfold aGet at h
  cases hf : m.find? (fun p => p.1 == k) with
  | none => rw [hf] at h; simp at h
  | some p =>
    rw [hf] at h
    simp only [Option.map_some', Option.some_inj] at h
    have hmem := List.mem_of_find?_eq_some hf
    have hkey : p.1 = k := by simpa using List.find?_some hf
    have hp : p = (k, v) := by cases p; simp_all
    rwa [hp] at hmem

theorem pyIndex_getElem {l : List String} {x : String} {i : Nat}
    (h : pyIndex l x = some i) : l[i]? = some x := by
  induction l generalizing i with
  | nil => simp [pyIndex] at h
  | cons y ys ih =>
    by_cases hy : y = x
    · rw [pyIndex, if_pos (by simpa using hy)] at h
      cases h; simpa using hy
    · rw [pyIndex, if_neg (by simpa using hy)] at h
      cases hpi : pyIndex ys x with
      | none => rw [hpi] at h; simp at h
      | some j =>
        rw [hpi] at h
        simp only [Option.map_some', Option.some_inj] at h
        subst h
        simpa using ih hpi

theorem getElem?_lt {α : Type} {l : List α} {i : Nat} {a : α}
    (h : l[i]? = some a) : i < l.length := by
  rw [List.getElem?_eq_some] at h
  exact h.1

theorem set_getElem?_self {α : Type} {l : List α} {i : Nat} {v : α}
    (h : l[i]? = some v) : l.set i v = l := by
  induction l generalizing i with
  | nil => simp at h
  | cons x xs ih =>
    cases i with
    | zero => simp at h; simp [h]
    | succ n => simp at h ⊢; exact ih h

/-!  The two lookup disciplines of the store agree on well-formed
stores: an object scan (`get_node_by_id`) lands on the same node that
`node_names.index` addressing reaches. -/

theorem find_id_eq_pyIndex (nodes : List Node) (x : String) :
    nodes.find? (fun n => n.id == x)
      = (pyIndex (nodes.map (·.id)) x).bind (fun i => nodes[i]?) := by
  induction nodes with
  | nil => rfl
  | cons n rest ih =>
    by_cases h : n.id = x
    · rw [List.find?_cons_of_pos _ (by simpa using h), List.map_cons, pyIndex,
        if_pos (by simpa using h)]
      simp
    · rw [List.find?_cons_of_neg _ (by simpa using h), List.map_cons, pyIndex,
        if_neg (by simpa using h), ih]
      cases pyIndex (rest.map (·.id)) x with
      | none => rfl
      | some j => simp

theorem get_node_by_id_eq_index (g : Graph) (hWF : WF g) (x : String) :
    g.get_node_by_id x = (pyIndex g.node_names x).bind (fun i => g.nodes[i]?) := by
  unfold Graph.get_node_by_id
  rw [hWF]
  exact find_id_eq_pyIndex g.nodes x


theorem nodeEdges_index {g : Graph} (hWF : WF g) {x : String} {i : Nat} {n : Node}
    (hpi : pyIndex g.node_names x = some i) (hn : g.nodes[i]? = some n) :
    nodeEdges g x = n.edges := by
  unfold nodeEdges
  rw [get_node_by_id_eq_index g hWF x, hpi]
  simp [hn]

theorem nodeEdges_index_none {g : Graph} (hWF : WF g) {x : String}
    (hpi : pyIndex g.node_names x = none) : nodeEdges g x = [] := by
  unfold nodeEdges
  rw [get_node_by_id_eq_index g hWF x, hpi]
  simp

theorem nodes_getElem_of_names {g : Graph} (hWF : WF g) {x : String} {j : Nat}
    (hpx : pyIndex g.node_names x = some j) :
    ∃ n, g.nodes[j]? = some n ∧ n.id = x := by
  have h1 := pyIndex_getElem hpx
  rw [hWF, List.getElem?_map] at h1
  cases hg : g.nodes[j]? with
  | none => rw [hg] at h1; simp at h1
  | some n => rw [hg] at h1; exact ⟨n, rfl, by simpa using h1⟩

/-- Inversion of a successful `add_edge(u, v)` on a well-formed store
with distinct endpoints: the left endpoint's incident list gains the
`u → v` edge object, the right endpoint's gains a distinct `v → u`
edge object, the global edge list gains only the former, and nothing
else about the node structure changes. -/
theorem add_edge_spec {g g' : Graph} {u v : String} (hWF : WF g) (huv : u ≠ v)
    (h : g.add_edge u v = some g') :
    nodeEdges g' u = nodeEdges g u ++ [⟨g.nextEid, u, v⟩] ∧
    nodeEdges g' v = nodeEdges g v ++ [⟨g.nextEid + 1, v, u⟩] ∧
    g'.edges = g.edges ++ [⟨g.nextEid, u, v⟩] ∧
    (∀ x, x ≠ u → x ≠ v → nodeEdges g' x = nodeEdges g x) ∧
    g'.node_names = g.node_names ∧ WF g' ∧ g'.nextEid = g.nextEid + 2 := by
  unfold Graph.add_edge at h
  obtain ⟨i1, hi1, h⟩ := Option.bind_eq_some.mp h
  obtain ⟨i2, hi2, h⟩ := Option.bind_eq_some.mp h
  obtain ⟨n1, hn1, h⟩ := Option.bind_eq_some.mp h
  obtain ⟨n2, hn2, h⟩ := Option.bind_eq_some.mp h
  obtain ⟨m2, hm2, h⟩ := Option.bind_eq_some.mp h
  simp only [Node.add_edge, Option.some_inj] at h
  have hu : n1.id = u := by
    obtain ⟨n, hn, hid⟩ := nodes_getElem_of_names hWF hi1
    rw [hn1] at hn
    rw [Option.some_inj.mp hn]
    exact hid
  have hv : n2.id = v := by
    obtain ⟨n, hn, hid⟩ := nodes_getElem_of_names hWF hi2
    rw [hn2] at hn
    rw [Option.some_inj.mp hn]
    exact hid
  have hii : i1 ≠ i2 := by
    intro he
    apply huv
    have h1 := pyIndex_getElem hi1
    have h2 := pyIndex_getElem hi2
    rw [he, h2] at h1
    exact (Option.some_inj.mp h1).symm
  have hm2n : m2 = n2 := by
    rw [List.getElem?_set_ne hii, hn2] at hm2
    exact (Option.some_inj.mp hm2).symm
  subst hm2n
  have hlt1 : i1 < g.nodes.length := getElem?_lt hn1
  have hlt2 : i2 < g.nodes.length := getElem?_lt hn2
  subst h
  have hnames1 : g.node_names[i1]? = some n1.id := by rw [hu]; exact pyIndex_getElem hi1
  have hnames2 : g.node_names[i2]? = some m2.id := by rw [hv]; exact pyIndex_getElem hi2
  have hmapid :
      ((g.nodes.set i1 { n1 with edges := n1.edges ++ [⟨g.nextEid, n1.id, m2.id⟩] }).set i2
        { m2 with edges := m2.edges ++ [⟨g.nextEid + 1, m2.id, n1.id⟩] }).map (·.id)
      = g.node_names := by
    rw [List.map_set, List.map_set, ← hWF]
    show (g.node_names.set i1 n1.id).set i2 m2.id = g.node_names
    rw [set_getElem?_self hnames1, set_getElem?_self hnames2]
  have hWF' : WF { g with
      nodes := (g.nodes.set i1 { n1 with edges := n1.edges ++ [⟨g.nextEid, n1.id, m2.id⟩] }).set i2
                 { m2 with edges := m2.edges ++ [⟨g.nextEid + 1, m2.id, n1.id⟩] },
      edges := g.edges ++ [⟨g.nextEid, n1.id, m2.id⟩],
      nextEid := g.nextEid + 2,
      events := g.notifyAll (.edgeAdded u v) } := by
    show g.node_names = _
    exact hmapid.symm
  have hget1 :
      ((g.nodes.set i1 { n1 with edges := n1.edges ++ [⟨g.nextEid, n1.id, m2.id⟩] }).set i2
        { m2 with edges := m2.edges ++ [⟨g.nextEid + 1, m2.id, n1.id⟩] })[i1]?
      = some { n1 with edges := n1.edges ++ [⟨g.nextEid, n1.id, m2.id⟩] } := by
    rw [List.getElem?_set_ne (Ne.symm hii), List.getElem?_set_self hlt1]
  have hget2 :
      ((g.nodes.set i1 { n1 with edges := n1.edges ++ [⟨g.nextEid, n1.id, m2.id⟩] }).set i2
        { m2 with edges := m2.edges ++ [⟨g.nextEid + 1, m2.id, n1.id⟩] })[i2]?
      = some { m2 with edges := m2.edges ++ [⟨g.nextEid + 1, m2.id, n1.id⟩] } := by
    rw [List.getElem?_set_self (by simpa using hlt2)]
  refine ⟨?_, ?_, by simp [hu, hv], ?_, rfl, hWF', rfl⟩
  · rw [nodeEdges_index hWF' (show pyIndex g.node_names u = some i1 from hi1) hget1,
      nodeEdges_index hWF hi1 hn1]
    simp [hu, hv]
  · rw [nodeEdges_index hWF' (show pyIndex g.node_names v = some i2 from hi2) hget2,
      nodeEdges_index hWF hi2 hn2]
    simp [hu, hv]
  · intro x hxu hxv
    cases hpx : pyIndex g.node_names x with
    | none =>
      rw [nodeEdges_index_none hWF' (show pyIndex g.node_names x = none from hpx),
        nodeEdges_index_none hWF hpx]
    | some j =>
      have hj1 : j ≠ i1 := by
        intro he
        apply hxu
        have ha := pyIndex_getElem hpx
        have hb := pyIndex_getElem hi1
        rw [he, hb] at ha
        exact (Option.some_inj.mp ha).symm
      have hj2 : j ≠ i2 := by
        intro he
        apply hxv
        have ha := pyIndex_getElem hpx
        have hb := pyIndex_getElem hi2
        rw [he, hb] at ha
        exact (Option.some_inj.mp ha).symm
      obtain ⟨n, hn, _⟩ := nodes_getElem_of_names hWF hpx
      have hn' :
          ((g.nodes.set i1 { n1 with edges := n1.edges ++ [⟨g.nextEid, n1.id, m2.id⟩] }).set i2
            { m2 with edges := m2.edges ++ [⟨g.nextEid + 1, m2.id, n1.id⟩] })[j]?
          = some n := by
        rw [List.getElem?_set_ne (Ne.symm hj2), List.getElem?_set_ne (Ne.symm hj1)]
        exact hn
      rw [nodeEdges_index hWF' (show pyIndex g.node_names x = some j from hpx) hn',
        nodeEdges_index hWF hpx hn]

theorem connectedNow_eq_any (g : Graph) (a b : String) :
    connectedNow g a b
      = (nodeEdges g a).any (fun e => e.lnode == b || e.rnode == b) := by
  unfold connectedNow nodeEdges Node.is_neighbor
  cases g.get_node_by_id a <;> simp

theorem connectedNow_mono {g g' : Graph} {a b : String}
    (hsub : ∀ x, ∃ t, nodeEdges g' x = nodeEdges g x ++ t)
    (hc : connectedNow g a b = true) : connectedNow g' a b = true := by
  rw [connectedNow_eq_any] at hc ⊢
  obtain ⟨t, ht⟩ := hsub a
  rw [ht, List.any_append, hc]
  simp

/-- Inversion of a successful `add_edge(u, v)` without assuming the
endpoints distinct: names are untouched, well-formedness is preserved,
every incident list only ever grows, and afterwards `u` lists `v` as a
neighbor and `v` lists `u`. -/
theorem add_edge_general {g g' : Graph} {u v : String} (hWF : WF g)
    (h : g.add_edge u v = some g') :
    g'.node_names = g.node_names ∧ WF g' ∧
    (∀ x, ∃ t, nodeEdges g' x = nodeEdges g x ++ t) ∧
    connectedNow g' u v = true ∧ connectedNow g' v u = true := by
  unfold Graph.add_edge at h
  obtain ⟨i1, hi1, h⟩ := Option.bind_eq_some.mp h
  obtain ⟨i2, hi2, h⟩ := Option.bind_eq_some.mp h
  obtain ⟨n1, hn1, h⟩ := Option.bind_eq_some.mp h
  obtain ⟨n2, hn2, h⟩ := Option.bind_eq_some.mp h
  obtain ⟨m2, hm2, h⟩ := Option.bind_eq_some.mp h
  simp only [Node.add_edge, Option.some_inj] at h
  simp only [Node.add_edge] at hm2
  have hu : n1.id = u := by
    obtain ⟨n, hn, hid⟩ := nodes_getElem_of_names hWF hi1
    rw [hn1] at hn
    rw [Option.some_inj.mp hn]
    exact hid
  have hlt1 : i1 < g.nodes.length := getElem?_lt hn1
  have hnames1 : g.node_names[i1]? = some n1.id := by rw [hu]; exact pyIndex_getElem hi1
  subst h
  have hset1names :
      (g.nodes.set i1 { n1 with edges := n1.edges ++ [⟨g.nextEid, n1.id, n2.id⟩] }).map (·.id)
        = g.node_names := by
    rw [List.map_set, ← hWF]
    show g.node_names.set i1 n1.id = g.node_names
    rw [set_getElem?_self hnames1]
  have hm2id : m2.id = v := by
    have hx := pyIndex_getElem hi2
    rw [← hset1names, List.getElem?_map, hm2] at hx
    simpa using hx
  have hlt2 : i2 < (g.nodes.set i1
      { n1 with edges := n1.edges ++ [⟨g.nextEid, n1.id, n2.id⟩] }).length :=
    getElem?_lt hm2
  have hmapid :
      (((g.nodes.set i1 { n1 with edges := n1.edges ++ [⟨g.nextEid, n1.id, n2.id⟩] }).set i2
        { m2 with edges := m2.edges ++ [⟨g.nextEid + 1, m2.id, n1.id⟩] }).map (·.id))
        = g.node_names := by
    rw [List.map_set, ← hset1names]
    show ((g.nodes.set i1 _).map _).set i2 m2.id = (g.nodes.set i1 _).map (·.id)
    apply set_getElem?_self
    rw [List.getElem?_map, hm2]
    simp
  have hWF' : WF { g with
      nodes := (g.nodes.set i1 { n1 with edges := n1.edges ++ [⟨g.nextEid, n1.id, n2.id⟩] }).set i2
                 { m2 with edges := m2.edges ++ [⟨g.nextEid + 1, m2.id, n1.id⟩] },
      edges := g.edges ++ [⟨g.nextEid, n1.id, n2.id⟩],
      nextEid := g.nextEid + 2,
      events := g.notifyAll (.edgeAdded u v) } := by
    show g.node_names = _
    exact hmapid.symm
  have hget2 :
      ((g.nodes.set i1 { n1 with edges := n1.edges ++ [⟨g.nextEid, n1.id, n2.id⟩] }).set i2
        { m2 with edges := m2.edges ++ [⟨g.nextEid + 1, m2.id, n1.id⟩] })[i2]?
      = some { m2 with edges := m2.edges ++ [⟨g.nextEid + 1, m2.id, n1.id⟩] } :=
    List.getElem?_set_self (by simpa using hlt2)
  have hsub : ∀ x, ∃ t,
      nodeEdges { g with
        nodes := (g.nodes.set i1 { n1 with edges := n1.edges ++ [⟨g.nextEid, n1.id, n2.id⟩] }).set i2
                   { m2 with edges := m2.edges ++ [⟨g.nextEid + 1, m2.id, n1.id⟩] },
        edges := g.edges ++ [⟨g.nextEid, n1.id, n2.id⟩],
        nextEid := g.nextEid + 2,
        events := g.notifyAll (.edgeAdded u v) } x = nodeEdges g x ++ t := by
    intro x
    cases hpx : pyIndex g.node_names x with
    | none =>
      refine ⟨[], ?_⟩
      rw [nodeEdges_index_none hWF' (show pyIndex g.node_names x = none from hpx),
        nodeEdges_index_none hWF hpx]
      simp
    | some j =>
      obtain ⟨n, hn, hnid⟩ := nodes_getElem_of_names hWF hpx
      by_cases hj2 : j = i2
      · subst hj2
        -- the node at j is m2 in the once-updated list
        by_cases hj1 : j = i1
        · subst hj1
          -- u and v share the index: m2 is the already-extended n1
          have hm2n : m2 = { n1 with edges := n1.edges ++ [⟨g.nextEid, n1.id, n2.id⟩] } := by
            rw [List.getElem?_set_self hlt1] at hm2
            exact (Option.some_inj.mp hm2).symm
          have hnn : n = n1 := by
            rw [hn1] at hn
            exact (Option.some_inj.mp hn).symm
          refine ⟨[⟨g.nextEid, n1.id, n2.id⟩, ⟨g.nextEid + 1, m2.id, n1.id⟩], ?_⟩
          rw [nodeEdges_index hWF' (show pyIndex g.node_names x = some j from hpx) hget2,
            nodeEdges_index hWF hpx hn, hm2n, hnn]
          simp
        · have hm2n : m2 = n := by
            rw [List.getElem?_set_ne (fun he => hj1 he.symm), hn] at hm2
            exact (Option.some_inj.mp hm2).symm
          refine ⟨[⟨g.nextEid + 1, m2.id, n1.id⟩], ?_⟩
          rw [nodeEdges_index hWF' (show pyIndex g.node_names x = some j from hpx) hget2,
            nodeEdges_index hWF hpx hn, hm2n]
      · by_cases hj1 : j = i1
        · subst hj1
          have hnn : n = n1 := by
            rw [hn1] at hn
            exact (Option.some_inj.mp hn).symm
          have hgetj :
              ((g.nodes.set j { n1 with edges := n1.edges ++ [⟨g.nextEid, n1.id, n2.id⟩] }).set i2
                { m2 with edges := m2.edges ++ [⟨g.nextEid + 1, m2.id, n1.id⟩] })[j]?
              = some { n1 with edges := n1.edges ++ [⟨g.nextEid, n1.id, n2.id⟩] } := by
            rw [List.getElem?_set_ne (fun he => hj2 he.symm), List.getElem?_set_self hlt1]
          refine ⟨[⟨g.nextEid, n1.id, n2.id⟩], ?_⟩
          rw [nodeEdges_index hWF' (show pyIndex g.node_names x = some j from hpx) hgetj,
            nodeEdges_index hWF hpx hn, hnn]
        · have hgetj :
              ((g.nodes.set i1 { n1 with edges := n1.edges ++ [⟨g.nextEid, n1.id, n2.id⟩] }).set i2
                { m2 with edges := m2.edges ++ [⟨g.nextEid + 1, m2.id, n1.id⟩] })[j]?
              = some n := by
            rw [List.getElem?_set_ne (fun he => hj2 he.symm),
              List.getElem?_set_ne (fun he => hj1 he.symm)]
            exact hn
          refine ⟨[], ?_⟩
          rw [nodeEdges_index hWF' (show pyIndex g.node_names x = some j from hpx) hgetj,
            nodeEdges_index hWF hpx hn]
          simp
  refine ⟨rfl, hWF', hsub, ?_, ?_⟩
  · -- u now lists v: the u → v edge object sits in u's incident list
    rw [connectedNow_eq_any]
    by_cases hj : i1 = i2
    · subst hj
      have hm2n : m2 = { n1 with edges := n1.edges ++ [⟨g.nextEid, n1.id, n2.id⟩] } := by
        rw [List.getElem?_set_self hlt1] at hm2
        exact (Option.some_inj.mp hm2).symm
      have hn2n : n2 = n1 := by
        rw [hn1] at hn2
        exact (Option.some_inj.mp hn2).symm
      rw [nodeEdges_index hWF' (show pyIndex g.node_names u = some i1 from hi1) hget2]
      have : (⟨g.nextEid, n1.id, n2.id⟩ : Edge) ∈
          ({ m2 with edges := m2.edges ++ [⟨g.nextEid + 1, m2.id, n1.id⟩] } : Node).edges := by
        rw [hm2n]
        simp
      refine List.any_eq_true.mpr ⟨_, this, ?_⟩
      have hnv : n2.id = v := by
        rw [hn2n]
        rw [hm2n] at hm2id
        exact hm2id
      simp [hnv]
    · have hget1 :
          ((g.nodes.set i1 { n1 with edges := n1.edges ++ [⟨g.nextEid, n1.id, n2.id⟩] }).set i2
            { m2 with edges := m2.edges ++ [⟨g.nextEid + 1, m2.id, n1.id⟩] })[i1]?
          = some { n1 with edges := n1.edges ++ [⟨g.nextEid, n1.id, n2.id⟩] } := by
        rw [List.getElem?_set_ne (fun he => hj he.symm), List.getElem?_set_self hlt1]
      rw [nodeEdges_index hWF' (show pyIndex g.node_names u = some i1 from hi1) hget1]
      have hn2v : n2.id = v := by
        have hm2n : m2 = n2 := by
          rw [List.getElem?_set_ne hj, hn2] at hm2
          exact (Option.some_inj.mp hm2).symm
        rw [← hm2n]
        exact hm2id
      refine List.any_eq_true.mpr ⟨⟨g.nextEid, n1.id, n2.id⟩, by simp, ?_⟩
      simp [hn2v]
  · -- v now lists u: the v → u edge object sits in v's incident list
    rw [connectedNow_eq_any]
    rw [nodeEdges_index hWF' (show pyIndex g.node_names v = some i2 from hi2) hget2]
    refine List.any_eq_true.mpr ⟨⟨g.nextEid + 1, m2.id, n1.id⟩, by simp, ?_⟩
    simp [hu]

theorem updateFirstNode_map_id (l : List Node) (x : String) (f : Node → Node)
    (hf : ∀ m, (f m).id = m.id) :
    (updateFirstNode l x f).map (·.id) = l.map (·.id) := by
  induction l with
  | nil => rfl
  | cons m rest ih =>
    by_cases h : m.id = x
    · simp [updateFirstNode, h, hf]
    · simp only [updateFirstNode, show (m.id == x) = false by simpa using h,
        Bool.false_eq_true, if_false, List.map_cons, ih]

theorem find_updateFirst_self (l : List Node) (x : String) (f : Node → Node)
    (hf : ∀ m, (f m).id = m.id) :
    (updateFirstNode l x f).find? (fun n => n.id == x)
      = (l.find? (fun n => n.id == x)).map f := by
  induction l with
  | nil => rfl
  | cons m rest ih =>
    by_cases h : m.id = x
    · rw [updateFirstNode, if_pos (by simpa using h),
        List.find?_cons_of_pos _ (by simp [hf, h]),
        List.find?_cons_of_pos _ (by simpa using h)]
      rfl
    · rw [updateFirstNode, if_neg (by simpa using h),
        List.find?_cons_of_neg _ (by simpa using h),
        List.find?_cons_of_neg _ (by simpa using h)]
      exact ih

theorem find_updateFirst_other (l : List Node) (x y : String) (f : Node → Node)
    (hf : ∀ m, (f m).id = m.id) (hxy : y ≠ x) :
    (updateFirstNode l x f).find? (fun n => n.id == y)
      = l.find? (fun n => n.id == y) := by
  induction l with
  | nil => rfl
  | cons m rest ih =>
    by_cases h : m.id = x
    · rw [updateFirstNode, if_pos (by simpa using h)]
      have hmy : (m.id == y) = false := by
        simp only [beq_eq_false_iff_ne]
        intro hh
        exact hxy ((hh.symm.trans h))
      rw [List.find?_cons_of_neg _ (by simp [hf, hmy]),
        List.find?_cons_of_neg _ (by simpa using hmy)]
    · rw [updateFirstNode, if_neg (by simpa using h)]
      by_cases h2 : m.id = y
      · rw [List.find?_cons_of_pos _ (by simpa using h2),
          List.find?_cons_of_pos _ (by simpa using h2)]
      · rw [List.find?_cons_of_neg _ (by simpa using h2),
          List.find?_cons_of_neg _ (by simpa using h2)]
        exact ih

/-- Inversion of `remove_edge(a, b)` in the case where a matching edge
is found: only `a`'s incident list changes (the found edge is erased
from it); `b`'s list, the global edge list and the name index are all
untouched. -/
theorem remove_edge_spec {g : Graph} (hWF : WF g) {a b : String} {n : Node}
    (hn : g.get_node_by_id a = some n)
    {e : Edge} (he : n.edges.find? (fun e : Edge => e.rnode == b && e.lnode == a) = some e) :
    nodeEdges (g.remove_edge a b) a = n.edges.erase e ∧
    (∀ x, x ≠ a → nodeEdges (g.remove_edge a b) x = nodeEdges g x) ∧
    (g.remove_edge a b).edges = g.edges ∧
    (g.remove_edge a b).node_names = g.node_names ∧
    WF (g.remove_edge a b) := by
  have hf : ∀ m : Node, ({ m with edges := m.edges.erase e } : Node).id = m.id :=
    fun _ => rfl
  have hres : g.remove_edge a b = { g with
      nodes := updateFirstNode g.nodes a (fun m => { m with edges := m.edges.erase e }),
      events := g.events ++ g.composables.map (fun c => (c, GEvent.edgeRemoved a b)) } := by
    unfold Graph.remove_edge
    simp only [hn, he, Graph.notifyAll]
  rw [hres]
  refine ⟨?_, ?_, rfl, rfl, ?_⟩
  · show (match (updateFirstNode g.nodes a
        (fun m => { m with edges := m.edges.erase e })).find? (fun n => n.id == a) with
      | some n => n.edges | none => ([] : List Edge)) = n.edges.erase e
    rw [find_updateFirst_self _ _ _ hf]
    unfold Graph.get_node_by_id at hn
    rw [hn]
    rfl
  · intro x hx
    show (match (updateFirstNode g.nodes a
        (fun m => { m with edges := m.edges.erase e })).find? (fun n => n.id == x) with
      | some n => n.edges | none => ([] : List Edge)) = nodeEdges g x
    rw [find_updateFirst_other _ _ _ _ hf hx]
    rfl
  · show g.node_names = _
    rw [updateFirstNode_map_id _ _ _ hf]
    exact hWF

/-- Source `remove_edge` never touches the name index and preserves
well-formedness (whether or not an edge was found). -/
theorem remove_edge_WF {g : Graph} (hWF : WF g) (a b : String) :
    (g.remove_edge a b).node_names = g.node_names ∧ WF (g.remove_edge a b) := by
  cases hn : g.get_node_by_id a with
  | none =>
    have hres : g.remove_edge a b = { g with
        events := g.events ++ g.composables.map (fun c => (c, GEvent.edgeRemoved a b)) } := by
      unfold Graph.remove_edge
      simp only [hn, Graph.notifyAll]
    rw [hres]
    exact ⟨rfl, hWF⟩
  | some n =>
    cases he : n.edges.find? (fun e : Edge => e.rnode == b && e.lnode == a) with
    | none =>
      have hres : g.remove_edge a b = { g with
          events := g.events ++ g.composables.map (fun c => (c, GEvent.edgeRemoved a b)) } := by
        unfold Graph.remove_edge
        simp only [hn, he, Graph.notifyAll]
      rw [hres]
      exact ⟨rfl, hWF⟩
    | some e =>
      have hres : g.remove_edge a b = { g with
          nodes := updateFirstNode g.nodes a (fun m => { m with edges := m.edges.erase e }),
          events := g.events ++ g.composables.map (fun c => (c, GEvent.edgeRemoved a b)) } := by
        unfold Graph.remove_edge
        simp only [hn, he, Graph.notifyAll]
      rw [hres]
      refine ⟨rfl, ?_⟩
      show g.node_names = (updateFirstNode g.nodes a
        (fun m => { m with edges := m.edges.erase e })).map (·.id)
      rw [updateFirstNode_map_id g.nodes a
        (fun m => { m with edges := m.edges.erase e }) (fun _ => rfl)]
      exact hWF

theorem yenRemovePhase_WF (i : Nat) (root : List String) (A : List PathEntry) :
    ∀ {g : Graph} {acc : List (String × String)} {g' : Graph}
      {removed : List (String × String)}, WF g →
      yenRemovePhase i root g A acc = some (g', removed) →
      WF g' ∧ g'.node_names = g.node_names := by
  induction A with
  | nil =>
    intro g acc g' removed hWF h
    simp only [yenRemovePhase, Option.some_inj, Prod.mk.injEq] at h
    rw [← h.1]
    exact ⟨hWF, rfl⟩
  | cons pk rest ih =>
    intro g acc g' removed hWF h
    rw [yenRemovePhase] at h
    split at h
    · split at h
      next u v _ _ =>
        obtain ⟨hnm2, hWF2⟩ := remove_edge_WF hWF u v
        obtain ⟨hWF', hnm'⟩ := ih hWF2 h
        exact ⟨hWF', hnm'.trans hnm2⟩
      next => simp at h
    · exact ih hWF h

theorem yenRestorePhase_grows (l : List (String × String)) :
    ∀ {g g' : Graph}, WF g → yenRestorePhase g l = some g' →
      WF g' ∧ (∀ x, ∃ t, nodeEdges g' x = nodeEdges g x ++ t) := by
  induction l with
  | nil =>
    intro g g' hWF h
    simp only [yenRestorePhase, Option.some_inj] at h
    subst h
    exact ⟨hWF, fun x => ⟨[], by simp⟩⟩
  | cons uv rest ih =>
    intro g g' hWF h
    obtain ⟨u, v⟩ := uv
    rw [yenRestorePhase] at h
    obtain ⟨gm, hgm, hrest⟩ := Option.bind_eq_some.mp h
    obtain ⟨_, hWFm, hsub, _, _⟩ := add_edge_general hWF hgm
    obtain ⟨hWF', hsub'⟩ := ih hWFm hrest
    refine ⟨hWF', fun x => ?_⟩
    obtain ⟨t1, ht1⟩ := hsub x
    obtain ⟨t2, ht2⟩ := hsub' x
    exact ⟨t1 ++ t2, by rw [ht2, ht1, List.append_assoc]⟩

theorem yenRestorePhase_connects (l : List (String × String)) :
    ∀ {g g' : Graph}, WF g → yenRestorePhase g l = some g' →
      ∀ uv ∈ l, connectedNow g' uv.1 uv.2 = true ∧ connectedNow g' uv.2 uv.1 = true := by
  induction l with
  | nil =>
    intro g g' _ _ uv hm
    simp at hm
  | cons w rest ih =>
    intro g g' hWF h uv hm
    obtain ⟨u, v⟩ := w
    rw [yenRestorePhase] at h
    obtain ⟨gm, hgm, hrest⟩ := Option.bind_eq_some.mp h
    obtain ⟨_, hWFm, _, hc1, hc2⟩ := add_edge_general hWF hgm
    rcases List.mem_cons.mp hm with heq | hmem
    · subst heq
      obtain ⟨_, hsub'⟩ := yenRestorePhase_grows rest hWFm hrest
      exact ⟨connectedNow_mono hsub' hc1, connectedNow_mono hsub' hc2⟩
    · exact ih hWFm hrest uv hmem

theorem yenSpurStep_phases {fuel : Nat} {distances : List (String × Nat)}
    {node_end : String} {A : List PathEntry} {current : List String} {i : Nat}
    {g : Graph} {B : List PathEntry} {g' : Graph} {B' : List PathEntry}
    (h : yenSpurStep fuel distances node_end A current i g B = some (g', B')) :
    ∃ g1 removed, yenRemovePhase i (current.take (i + 1)) g A [] = some (g1, removed) ∧
      yenRestorePhase g1 removed = some g' := by
  unfold yenSpurStep at h
  obtain ⟨ns, _, h⟩ := Option.bind_eq_some.mp h
  obtain ⟨rm, hrm, h⟩ := Option.bind_eq_some.mp h
  obtain ⟨dj, _, h⟩ := Option.bind_eq_some.mp h
  obtain ⟨sp, _, h⟩ := Option.bind_eq_some.mp h
  obtain ⟨g2, hg2, h⟩ := Option.bind_eq_some.mp h
  simp only [Option.pure_def, Option.some_inj, Prod.mk.injEq] at h
  exact ⟨rm.1, rm.2, by rw [hrm], by rw [hg2, h.1]⟩

/-- C3: a spur-position step of `compute_yen_ksp` consists of the
edge-removal loop, the spur shortest-path run (which does not touch the
store), and the restore loop over `edges_removed`.  After the restore
loop has run, every endpoint pair recorded as removed during the step
is connected again — each endpoint lists the other as a neighbor — so
no edge of the topology remains removed when the step ends. -/
theorem c3_spur_step_restores_removed_edges
    (fuel : Nat) (distances : List (String × Nat)) (node_end : String)
    (A : List PathEntry) (current : List String) (i : Nat)
    (g : Graph) (B : List PathEntry) (g' : Graph) (B' : List PathEntry)
    (hWF : WF g)
    (h : yenSpurStep fuel distances node_end A current i g B = some (g', B')) :
    ∃ g1 removed,
      yenRemovePhase i (current.take (i + 1)) g A [] = some (g1, removed) ∧
      yenRestorePhase g1 removed = some g' ∧
      ∀ uv ∈ removed,
        connectedNow g' uv.1 uv.2 = true ∧ connectedNow g' uv.2 uv.1 = true := by
  obtain ⟨g1, removed, hrm, hre⟩ := yenSpurStep_phases h
  refine ⟨g1, removed, hrm, hre, ?_⟩
  exact yenRestorePhase_connects removed
    (yenRemovePhase_WF i (current.take (i + 1)) A hWF hrm).1 hre

/-- Witness for C3: the spur step at position 0 on the chain `a-b-c`
(accepted list holding the shortest path `a,b,c`) removes and then
restores the edge `a-b`. -/
theorem c3_spur_step_restores_removed_edges_witness :
    ∃ g1 removed,
      yenRemovePhase 0 (["a", "b", "c"].take 1) gChain c3A [] = some (g1, removed) ∧
      yenRestorePhase g1 removed = some c2StepG ∧
      ∀ uv ∈ removed,
        connectedNow c2StepG uv.1 uv.2 = true ∧ connectedNow c2StepG uv.2 uv.1 = true :=
  c3_spur_step_restores_removed_edges 100 c2Dists "c" c3A ["a", "b", "c"] 0
    gChain [] c2StepG [⟨maxsize, ["c"]⟩] (by exact rfl) (by rfl)

/-- C2 (amended): within a spur step, the candidate `potential_k` is
appended to `B` only when no entry with the same cost and path is
already present, so `B` never acquires duplicate entries. -/
theorem c2_spur_step_B_nodup
    (fuel : Nat) (distances : List (String × Nat)) (node_end : String)
    (A : List PathEntry) (current : List String) (i : Nat)
    (g : Graph) (B : List PathEntry) (g' : Graph) (B' : List PathEntry)
    (hB : B.Nodup)
    (h : yenSpurStep fuel distances node_end A current i g B = some (g', B')) :
    B'.Nodup := by
  unfold yenSpurStep at h
  obtain ⟨ns, _, h⟩ := Option.bind_eq_some.mp h
  obtain ⟨rm, _, h⟩ := Option.bind_eq_some.mp h
  obtain ⟨dj, _, h⟩ := Option.bind_eq_some.mp h
  obtain ⟨sp, _, h⟩ := Option.bind_eq_some.mp h
  obtain ⟨g2, _, h⟩ := Option.bind_eq_some.mp h
  simp only [Option.pure_def, Option.some_inj, Prod.mk.injEq] at h
  rw [← h.2]
  by_cases hp : (⟨aGetD distances ns maxsize + aGetD dj.1 node_end maxsize,
      (current.take (i + 1)).dropLast ++ sp⟩ : PathEntry) ∈ B
  · rw [if_pos hp]
    exact hB
  · rw [if_neg hp]
    refine List.Nodup.append hB (List.nodup_singleton _) ?_
    intro x hx hx1
    rw [List.mem_singleton] at hx1
    subst hx1
    exact hp hx

/-- Witness for C2 (amended): the spur step at position 0 on the chain
`a-b-c` starting from an empty `B` yields a duplicate-free `B`. -/
theorem c2_spur_step_B_nodup_witness : ([⟨maxsize, ["c"]⟩] : List PathEntry).Nodup :=
  c2_spur_step_B_nodup 100 c2Dists "c" c3A ["a", "b", "c"] 0 gChain []
    c2StepG [⟨maxsize, ["c"]⟩] List.nodup_nil (by rfl)

/-- Counterexample for C2: on the chain `a-b-c`, `compute_yen_ksp(a, c, 4)`
returns an accepted list whose node sequences are
`[a,b,c], [c], [a,c], [c]` — the entry `{cost: maxsize, path: [c]}`
appears twice, so the entries of `A` are not pairwise distinct. -/
theorem c2_counterexample :
    gChain.compute_yen_ksp 100 "a" "c" 4
      = some (c2FinalGraph,
          [⟨2, ["a", "b", "c"]⟩, ⟨maxsize, ["c"]⟩,
           ⟨maxsize + 1, ["a", "c"]⟩, ⟨maxsize, ["c"]⟩]) ∧
    ¬ ([["a", "b", "c"], ["c"], ["a", "c"], ["c"]] : List (List String)).Nodup :=
  ⟨by rfl, by decide⟩

/-- C4 (amended): `add_edge(u, v)` creates two distinct edge objects —
the `u → v` object appended to `u`'s incident list and the `v → u`
object appended to `v`'s — and appends only the `u → v` object to the
store's global edge list. -/
theorem c4_add_edge_two_objects {g g' : Graph} {u v : String}
    (hWF : WF g) (huv : u ≠ v) (h : g.add_edge u v = some g') :
    nodeEdges g' u = nodeEdges g u ++ [⟨g.nextEid, u, v⟩] ∧
    nodeEdges g' v = nodeEdges g v ++ [⟨g.nextEid + 1, v, u⟩] ∧
    g'.edges = g.edges ++ [⟨g.nextEid, u, v⟩] := by
  obtain ⟨h1, h2, h3, _⟩ := add_edge_spec hWF huv h
  exact ⟨h1, h2, h3⟩

/-- Witness for C4 (amended): adding the edge `a-b` between two isolated
nodes. -/
theorem c4_add_edge_two_objects_witness :
    nodeEdges gPair "a" = nodeEdges gTwoIso "a" ++ [⟨0, "a", "b"⟩] ∧
    nodeEdges gPair "b" = nodeEdges gTwoIso "b" ++ [⟨1, "b", "a"⟩] ∧
    gPair.edges = gTwoIso.edges ++ [⟨0, "a", "b"⟩] :=
  @c4_add_edge_two_objects gTwoIso gPair "a" "b" (by exact rfl) (by decide) (by rfl)

/-- Counterexample for C4: after `add_edge(a, b)` on two fresh nodes,
the store's single edge object is not shared by both endpoints — it is
absent from `b`'s incident-edge collection. -/
theorem c4_counterexample :
    ¬ (∀ e ∈ gPair.edges, e ∈ nodeEdges gPair "a" ∧ e ∈ nodeEdges gPair "b") := by
  decide

/-- C9: `remove_edge(a, b)` followed by `add_edge(a, b)` is not a
round-trip.  The removal detaches the found edge from `a`'s incident
list only — `b`'s incident list and the global edge list are untouched —
while the re-add appends fresh objects to both incident lists and the
global list, so each remove/re-add cycle grows `b`'s incident list and
the store's edge list by one entry each (while `a`'s incident count is
only restored). -/
theorem c9_remove_then_add_grows
    {g : Graph} {a b : String} (hWF : WF g) (hab : a ≠ b)
    {n : Node} (hn : g.get_node_by_id a = some n)
    {e : Edge} (he : n.edges.find? (fun e : Edge => e.rnode == b && e.lnode == a) = some e)
    {g2 : Graph} (h2 : (g.remove_edge a b).add_edge a b = some g2) :
    nodeEdges (g.remove_edge a b) b = nodeEdges g b ∧
    (g.remove_edge a b).edges = g.edges ∧
    (nodeEdges (g.remove_edge a b) a).length + 1 = (nodeEdges g a).length ∧
    (nodeEdges g2 b).length = (nodeEdges g b).length + 1 ∧
    g2.edges.length = g.edges.length + 1 ∧
    (nodeEdges g2 a).length = (nodeEdges g a).length := by
  obtain ⟨hra, hrx, hredges, _, hrWF⟩ := remove_edge_spec hWF hn he
  have hrb : nodeEdges (g.remove_edge a b) b = nodeEdges g b := hrx b (Ne.symm hab)
  obtain ⟨haa, habl, haedges, _, _, _, _⟩ := add_edge_spec hrWF hab h2
  have hga : nodeEdges g a = n.edges := by
    unfold nodeEdges
    rw [hn]
  have hmem : e ∈ n.edges := List.mem_of_find?_eq_some he
  have herase : (n.edges.erase e).length + 1 = n.edges.length :=
    List.length_erase_add_one hmem
  refine ⟨hrb, hredges, ?_, ?_, ?_, ?_⟩
  · rw [hra, hga]
    exact herase
  · rw [habl, hrb]
    simp
  · rw [haedges, hredges]
    simp
  · rw [haa, hra, hga]
    simp only [List.length_append, List.length_cons, List.length_nil]
    omega

/-- Witness for C9 on the chain `a-b-c`: removing and re-adding the
edge `a-b`. -/
theorem c9_remove_then_add_grows_witness :
    nodeEdges c9G1 "b" = nodeEdges gChain "b" ∧
    c9G1.edges = gChain.edges ∧
    (nodeEdges c9G1 "a").length + 1 = (nodeEdges gChain "a").length ∧
    (nodeEdges c9G2 "b").length = (nodeEdges gChain "b").length + 1 ∧
    c9G2.edges.length = gChain.edges.length + 1 ∧
    (nodeEdges c9G2 "a").length = (nodeEdges gChain "a").length :=
  c9_remove_then_add_grows (by exact rfl) (by decide) (by rfl) (by rfl) (by rfl)

/-- C8: `add_node` with an already-indexed name fails with the
duplicate-name error and returns the store exactly as it was (node
list, name index, edge list, event log all unchanged); with a fresh
name it appends the created node, indexes the name, notifies every
registered observer, and returns the node. -/
theorem c8_add_node_spec (g : Graph) (n t : String) :
    (n ∈ g.node_names → g.add_node n t = (g, .error .duplicateNodeName)) ∧
    (n ∉ g.node_names →
      g.add_node n t =
        ({ g with nodes := g.nodes ++ [⟨n, t, []⟩],
                  node_names := g.node_names ++ [n],
                  events := g.events ++ g.composables.map (fun c => (c, GEvent.nodeAdded n)) },
         .ok ⟨n, t, []⟩)) := by
  constructor
  · intro h
    unfold Graph.add_node
    rw [if_pos h]
  · intro h
    unfold Graph.add_node
    rw [if_neg h]
    rfl

/-- Witness for C8: re-adding `a` to the two-node store fails and
leaves it untouched; adding the fresh `c` succeeds. -/
theorem c8_add_node_spec_witness :
    gTwoIso.add_node "a" "spare" = (gTwoIso, .error .duplicateNodeName) ∧
    gTwoIso.add_node "c" "host" =
      ({ gTwoIso with nodes := gTwoIso.nodes ++ [⟨"c", "host", []⟩],
                      node_names := gTwoIso.node_names ++ ["c"],
                      events := gTwoIso.events ++ gTwoIso.composables.map
                        (fun c => (c, GEvent.nodeAdded "c")) },
       .ok ⟨"c", "host", []⟩) :=
  ⟨(c8_add_node_spec gTwoIso "a" "spare").1 (by decide),
   (c8_add_node_spec gTwoIso "c" "host").2 (by decide)⟩

theorem add_node_error_eq {g : Graph} {n t : String} {g1 : Graph} {e : TopoError}
    (h : g.add_node n t = (g1, .error e)) : g1 = g := by
  unfold Graph.add_node at h
  by_cases hm : n ∈ g.node_names
  · rw [if_pos hm] at h
    exact (Prod.mk.injEq _ _ _ _ ▸ h).1.symm ▸ rfl
  · rw [if_neg hm] at h
    simp at h

theorem add_node_ok_names {g : Graph} {n t : String} {g1 : Graph} {nd : Node}
    (h : g.add_node n t = (g1, .ok nd)) : g1.node_names = g.node_names ++ [n] := by
  unfold Graph.add_node at h
  by_cases hm : n ∈ g.node_names
  · rw [if_pos hm] at h
    simp at h
  · rw [if_neg hm] at h
    have := (Prod.mk.injEq _ _ _ _ ▸ h).1
    rw [← this]

theorem create_nodes_names_extend (arr : List (String × Option String)) :
    ∀ g : Graph, ∃ l, ((g.create_nodes_from_array arr).1).node_names
      = g.node_names ++ l := by
  induction arr with
  | nil =>
    intro g
    exact ⟨[], by simp [Graph.create_nodes_from_array]⟩
  | cons p rest ih =>
    intro g
    obtain ⟨n, t?⟩ := p
    cases t? with
    | none => exact ⟨[], by simp [Graph.create_nodes_from_array]⟩
    | some t =>
      rcases hadd : g.add_node n t with ⟨g1, r⟩
      cases r with
      | error e =>
        refine ⟨[], ?_⟩
        have hg1 : g1 = g := add_node_error_eq hadd
        simp [Graph.create_nodes_from_array, hadd, hg1]
      | ok nd =>
        obtain ⟨l, hl⟩ := ih g1
        refine ⟨n :: l, ?_⟩
        show ((match g.add_node n t with
          | (g', .ok _) => g'.create_nodes_from_array rest
          | (g', .error e) => (g', some e)).1).node_names = _
        rw [hadd]
        rw [hl, add_node_ok_names hadd]
        simp

/-- C10: bulk construction is not atomic.  If the array is a block of
well-typed entries followed by an entry with no type, the run stops at
that entry with the missing-type error, and the store returned is the
one holding every node of the earlier entries: each of their names is
(and remains) indexed. -/
theorem c10_create_nodes_not_atomic (g : Graph) (pre : List (String × Option String))
    (nm : String) (rest : List (String × Option String)) (g' : Graph)
    (hok : g.create_nodes_from_array pre = (g', none)) :
    g.create_nodes_from_array (pre ++ (nm, none) :: rest)
      = (g', some .nodeTypeNotFound) ∧
    ∀ p ∈ pre, p.1 ∈ g'.node_names := by
  induction pre generalizing g with
  | nil =>
    simp only [Graph.create_nodes_from_array, Prod.mk.injEq] at hok
    rw [← hok.1]
    constructor
    · simp [Graph.create_nodes_from_array]
    · intro p hp
      simp at hp
  | cons q pre' ih =>
    obtain ⟨n, t?⟩ := q
    cases t? with
    | none => simp [Graph.create_nodes_from_array] at hok
    | some t =>
      rcases hadd : g.add_node n t with ⟨g1, r⟩
      cases r with
      | error e =>
        have : Graph.create_nodes_from_array g ((n, some t) :: pre') = (g1, some e) := by
          show (match g.add_node n t with
            | (g', .ok _) => g'.create_nodes_from_array pre'
            | (g', .error e) => (g', some e)) = _
          rw [hadd]
        rw [this] at hok
        simp at hok
      | ok nd =>
        have hok' : g1.create_nodes_from_array pre' = (g', none) := by
          have : Graph.create_nodes_from_array g ((n, some t) :: pre')
              = g1.create_nodes_from_array pre' := by
            show (match g.add_node n t with
              | (g', .ok _) => g'.create_nodes_from_array pre'
              | (g', .error e) => (g', some e)) = _
            rw [hadd]
          rw [this] at hok
          exact hok
        obtain ⟨h1, h2⟩ := ih g1 hok'
        constructor
        · show (match g.add_node n t with
            | (g', .ok _) => g'.create_nodes_from_array (pre' ++ (nm, none) :: rest)
            | (g', .error e) => (g', some e)) = _
          rw [hadd]
          exact h1
        · intro p hp
          rcases List.mem_cons.mp hp with heq | hmem
          · subst heq
            have hnm : n ∈ g1.node_names := by
              rw [add_node_ok_names hadd]
              simp
            obtain ⟨l, hl⟩ := create_nodes_names_extend pre' g1
            rw [hok'] at hl
            rw [hl]
            exact List.mem_append_left _ hnm
          · exact h2 p hmem

/-- Witness for C10: two entries, the second lacking a type; entry `a`
is inserted and survives the exception. -/
theorem c10_create_nodes_not_atomic_witness :
    (Graph.init "w").create_nodes_from_array [("a", some "h"), ("b", none)]
      = (c10G, some .nodeTypeNotFound) ∧
    ∀ p ∈ [(("a" : String), some ("h" : String))], p.1 ∈ c10G.node_names :=
  c10_create_nodes_not_atomic (Graph.init "w") [("a", some "h")] "b" [] c10G (by rfl)

/-- C1 (code-bug evidence): on the store with nodes `a`, `b`, `c` and
the single edge `a-b`, the destination `b` is reachable from `a`, yet
the matrix/SPT solver aborts — after settling the two reachable nodes
its min-scan leaves `min_idx = None` and the relaxation loop indexes
the adjacency matrix with `None`, a `TypeError` — while the
priority-queue solver reports distance `1`. -/
theorem c1_spt_crashes_where_heap_answers :
    (gIso.compute_dijikstra_using_spt "a" "b").2 = none ∧
    (computeDijkstraUsingHeap gIso "a" 100).map (fun r => aGetD r.1 "b" maxsize)
      = some 1 :=
  ⟨by rfl, by rfl⟩

theorem processLoop_length (g : Graph) (fuel : Nat) (hi : Node) :
    ∀ (rem : List Node) (t_res : List Nat) (memo : List (String × Nat))
      {res : List Nat} {memo' : List (String × Nat)},
      processLoop g fuel hi rem t_res memo = some (res, memo') →
      res.length = t_res.length + rem.length := by
  intro rem
  induction rem with
  | nil =>
    intro t_res memo res memo' h
    simp only [processLoop, Option.some_inj, Prod.mk.injEq] at h
    rw [← h.1]
    simp
  | cons r rest ih =>
    intro t_res memo res memo' h
    rw [processLoop] at h
    split at h
    · have := ih _ _ h
      rw [this]
      simp
      omega
    · split at h
      · have := ih _ _ h
        rw [this]
        simp
        omega
      · obtain ⟨dj, _, h⟩ := Option.bind_eq_some.mp h
        have := ih _ _ h
        rw [this]
        simp
        omega

theorem processInput_length {g : Graph} {fuel : Nat} {hosts : List Node} {idx : Nat}
    {memo : List (String × Nat)} {res : List Nat} {memo' : List (String × Nat)}
    (h : processInput g fuel hosts idx memo = some (res, memo'))
    (hidx : idx < hosts.length) :
    res.length = hosts.length - 1 := by
  unfold processInput at h
  obtain ⟨hi, _, h⟩ := Option.bind_eq_some.mp h
  have := processLoop_length g fuel hi _ [] memo h
  rw [this]
  simp only [List.length_nil, List.length_append, List.length_take, List.length_drop]
  omega

theorem allHostsGo_length (g : Graph) (fuel : Nat) (hosts : List Node) :
    ∀ (idxs : List Nat) (memo : List (String × Nat)) (accRes : List Nat)
      {res : List Nat},
      (∀ i ∈ idxs, i < hosts.length) →
      allHostsGo g fuel hosts idxs memo accRes = some res →
      res.length = accRes.length + idxs.length * (hosts.length - 1) := by
  intro idxs
  induction idxs with
  | nil =>
    intro memo accRes res _ h
    simp only [allHostsGo, Option.some_inj] at h
    rw [← h]
    simp
  | cons idx idxs ih =>
    intro memo accRes res hb h
    rw [allHostsGo] at h
    obtain ⟨st, hst, h⟩ := Option.bind_eq_some.mp h
    have h1 : st.1.length = hosts.length - 1 := by
      have hp : processInput g fuel hosts idx memo = some (st.1, st.2) := by
        simpa using hst
      exact processInput_length hp (hb idx (List.mem_cons_self idx idxs))
    have h2 := ih st.2 (accRes ++ st.1) (fun i hi => hb i (List.mem_cons_of_mem _ hi)) h
    rw [h2, List.length_append, h1, List.length_cons, Nat.succ_mul]
    omega

/-- C5 (amended): in the all-pairs computation each unit of work
appends exactly one distance per other host — computing it fresh when
the memo holds neither key orientation and reusing the memoized value
otherwise — so the flat result carries one contribution per ordered
pair: its length is `h * (h - 1)` for `h` hosts, not one per unordered
pair. -/
theorem c5_all_hosts_ordered_pairs (g : Graph) (fuel : Nat) (res : List Nat)
    (h : g.compute_dijikstra_for_all_hosts fuel = some res) :
    res.length = g.get_all_hosts.length * (g.get_all_hosts.length - 1) := by
  unfold Graph.compute_dijikstra_for_all_hosts at h
  have := allHostsGo_length g fuel g.get_all_hosts (List.range g.get_all_hosts.length)
    [] [] (fun i hi => List.mem_range.mp hi) h
  simpa using this

/-- Witness for C5 (amended): the two-host store yields two
contributions. -/
theorem c5_all_hosts_ordered_pairs_witness :
    ([1, 1] : List Nat).length
      = gHosts.get_all_hosts.length * (gHosts.get_all_hosts.length - 1) :=
  c5_all_hosts_ordered_pairs gHosts 100 [1, 1] (by rfl)

/-- Counterexample for C5: two hosts form one unordered pair, yet the
flat result holds two entries — the symmetric distance appears once per
ordered pair (the second copy served from the memo). -/
theorem c5_counterexample :
    gHosts.compute_dijikstra_for_all_hosts 100 = some [1, 1] ∧
    ¬ (([1, 1] : List Nat).length = 1) :=
  ⟨by rfl, by decide⟩

theorem ecmpLoop_spec (shortest : PathEntry) (required : Nat) :
    ∀ (ps acc : List PathEntry), acc.length < required →
      (ecmpLoop shortest required ps acc).length ≤ required ∧
      ∀ p ∈ ecmpLoop shortest required ps acc,
        p ∈ acc ∨ (p ∈ ps ∧ p.path.length = shortest.path.length) := by
  intro ps
  induction ps with
  | nil =>
    intro acc hacc
    rw [ecmpLoop]
    exact ⟨Nat.le_of_lt hacc, fun p hp => Or.inl hp⟩
  | cons q qs ih =>
    intro acc hacc
    by_cases hq : (q.path.length == shortest.path.length) = true
    · by_cases hlen : ((acc ++ [q]).length == required) = true
      · have hres : ecmpLoop shortest required (q :: qs) acc = acc ++ [q] := by
          rw [ecmpLoop]
          simp only [hq, if_true, hlen, if_true]
        rw [hres]
        constructor
        · exact Nat.le_of_eq (by simpa using hlen)
        · intro p hp
          rcases List.mem_append.mp hp with hpa | hpq
          · exact Or.inl hpa
          · rw [List.mem_singleton] at hpq
            subst hpq
            exact Or.inr ⟨List.mem_cons_self _ _, by simpa using hq⟩
      · have hres : ecmpLoop shortest required (q :: qs) acc
            = ecmpLoop shortest required qs (acc ++ [q]) := by
          rw [ecmpLoop]
          rw [show (if (q.path.length == shortest.path.length) = true
              then acc ++ [q] else acc) = acc ++ [q] from by simp [hq]]
          rw [if_neg hlen]
        rw [hres]
        have hacc' : (acc ++ [q]).length < required := by
          have hle : (acc ++ [q]).length ≤ required := by
            simp only [List.length_append, List.length_cons, List.length_nil]
            omega
        -- strict: length ≠ required
          rcases Nat.lt_or_ge (acc ++ [q]).length required with hh | hh
          · exact hh
          · exact absurd (Nat.le_antisymm hle hh) (by simpa using hlen)
        obtain ⟨h1, h2⟩ := ih (acc ++ [q]) hacc'
        refine ⟨h1, fun p hp => ?_⟩
        rcases h2 p hp with hpa | ⟨hpm, hpl⟩
        · rcases List.mem_append.mp hpa with hpa2 | hpq
          · exact Or.inl hpa2
          · rw [List.mem_singleton] at hpq
            subst hpq
            exact Or.inr ⟨List.mem_cons_self _ _, by simpa using hq⟩
        · exact Or.inr ⟨List.mem_cons_of_mem _ hpm, hpl⟩
    · have hres : ecmpLoop shortest required (q :: qs) acc
          = ecmpLoop shortest required qs acc := by
        rw [ecmpLoop]
        rw [show (if (q.path.length == shortest.path.length) = true
            then acc ++ [q] else acc) = acc from by simp [hq]]
        rw [if_neg (show ¬(acc.length == required) = true from by
          simpa using Nat.ne_of_lt hacc)]
      rw [hres]
      obtain ⟨h1, h2⟩ := ih acc hacc
      refine ⟨h1, fun p hp => ?_⟩
      rcases h2 p hp with hpa | ⟨hpm, hpl⟩
      · exact Or.inl hpa
      · exact Or.inr ⟨List.mem_cons_of_mem _ hpm, hpl⟩

/-- C7 (amended): for a pair present in the computed-paths collection
and any requested count `K ≥ 1`, `get_ecmp_paths` returns only paths
drawn from index 1 onward of the ranked list whose node-sequence length
equals the shortest path's, and the number returned never exceeds `K`.
(For `K = 0` the count bound can be violated — see the
counterexample.) -/
theorem c7_get_ecmp_paths_spec (computed : List (String × List PathEntry))
    (aId bId : String) (k : Nat) (hk : 1 ≤ k)
    (shortest : PathEntry) (rest : List PathEntry)
    (hlook : aGet computed (aId ++ ":" ++ bId) = some (shortest :: rest))
    (res : List PathEntry) (h : Graph.get_ecmp_paths computed aId bId k = some res) :
    res.length ≤ k ∧ ∀ p ∈ res, p ∈ rest ∧ p.path.length = shortest.path.length := by
  unfold Graph.get_ecmp_paths at h
  rw [hlook] at h
  have hres : res = ecmpLoop shortest k rest [] := (Option.some_inj.mp h).symm
  subst hres
  obtain ⟨h1, h2⟩ := ecmpLoop_spec shortest k rest [] (by simpa using hk)
  refine ⟨h1, fun p hp => ?_⟩
  rcases h2 p hp with hpa | ⟨hpm, hpl⟩
  · simp at hpa
  · exact ⟨hpm, hpl⟩

/-- Witness for C7 (amended): requesting one path from a ranked list
with two equal-length paths returns exactly one. -/
theorem c7_get_ecmp_paths_spec_witness :
    ([⟨2, ["a", "y", "b"]⟩] : List PathEntry).length ≤ 1 :=
  (c7_get_ecmp_paths_spec c7Map "a" "b" 1 (by decide) ⟨2, ["a", "x", "b"]⟩
    [⟨2, ["a", "y", "b"]⟩] (by rfl) _ (by rfl)).1

/-- Counterexample for C7: the loop's break test compares the current
collection size — which starts at `0` and only grows — against
`required_path_count` on every iteration.  Here the first examined path
has the shortest path's length, so it is appended before the test can
see size `0` again; the test never fires and one path is returned even
though the claim caps the count at `K = 0`. -/
theorem c7_counterexample :
    Graph.get_ecmp_paths c7Map "a" "b" 0 = some [⟨2, ["a", "y", "b"]⟩] ∧
    ¬ (1 ≤ 0) :=
  ⟨by rfl, by decide⟩

theorem mem_aSet {α : Type} {m : List (String × α)} {k : String} {v : α}
    {kv : String × α} (h : kv ∈ aSet m k v) : kv = (k, v) ∨ kv ∈ m := by
  induction m with
  | nil => simpa [aSet] using h
  | cons p rest ih =>
    obtain ⟨k1, v1⟩ := p
    by_cases hp : k1 = k
    · rw [aSet, if_pos (by simpa using hp)] at h
      rcases List.mem_cons.mp h with heq | hm
      · exact Or.inl heq
      · exact Or.inr (List.mem_cons_of_mem _ hm)
    · rw [aSet, if_neg (by simpa using hp)] at h
      rcases List.mem_cons.mp h with heq | hm
      · exact Or.inr (heq ▸ List.mem_cons_self _ _)
      · rcases ih hm with h1 | h2
        · exact Or.inl h1
        · exact Or.inr (List.mem_cons_of_mem _ h2)

theorem aGetD_le_of_bounded {dist : List (String × Nat)}
    (hd : ∀ kv ∈ dist, kv.2 ≤ maxsize) (k : String) :
    aGetD dist k maxsize ≤ maxsize := by
  unfold aGetD
  cases hg : aGet dist k with
  | none => simp
  | some v =>
    simp only [Option.getD_some]
    exact hd (k, v) (mem_of_aGet_eq_some hg)

theorem relaxEdge_inv (nodeId : String) (visited : List String)
    (pq : List HItem) (dist : List (String × Nat)) (prev : List (String × String))
    (hd : ∀ kv ∈ dist, kv.2 ≤ maxsize)
    (hp : ∀ kv ∈ prev, aGetD dist kv.1 maxsize < maxsize) (e : Edge) :
    (∀ kv ∈ (relaxEdge nodeId visited (pq, dist, prev) e).2.1, kv.2 ≤ maxsize) ∧
    (∀ kv ∈ (relaxEdge nodeId visited (pq, dist, prev) e).2.2,
      aGetD (relaxEdge nodeId visited (pq, dist, prev) e).2.1 kv.1 maxsize < maxsize) := by
  unfold relaxEdge
  by_cases hv : e.rnode ∈ visited
  · simp only [hv, if_true]
    exact ⟨hd, hp⟩
  · simp only [hv, if_false]
    by_cases himp : aGetD dist e.rnode maxsize > aGetD dist nodeId maxsize + 1
    · rw [if_pos himp]
      have hnew : aGetD dist nodeId maxsize + 1 < maxsize :=
        Nat.lt_of_lt_of_le himp (aGetD_le_of_bounded hd e.rnode)
      constructor
      · intro kv hkv
        rcases mem_aSet hkv with heq | hm
        · rw [heq]
          exact Nat.le_of_lt hnew
        · exact hd kv hm
      · intro kv hkv
        unfold aGetD
        by_cases hk : kv.1 = e.rnode
        · rw [hk, aGet_aSet_self]
          simpa using hnew
        · rw [aGet_aSet_ne _ _ _ _ hk]
          rcases mem_aSet hkv with heq | hm
          · exact absurd (by rw [heq]) hk
          · exact hp kv hm
    · rw [if_neg himp]
      exact ⟨hd, hp⟩

theorem foldl_relax_inv (nodeId : String) (visited : List String) :
    ∀ (edges : List Edge) (pq : List HItem) (dist : List (String × Nat))
      (prev : List (String × String)),
      (∀ kv ∈ dist, kv.2 ≤ maxsize) →
      (∀ kv ∈ prev, aGetD dist kv.1 maxsize < maxsize) →
      (∀ kv ∈ (edges.foldl (relaxEdge nodeId visited) (pq, dist, prev)).2.1,
        kv.2 ≤ maxsize) ∧
      (∀ kv ∈ (edges.foldl (relaxEdge nodeId visited) (pq, dist, prev)).2.2,
        aGetD ((edges.foldl (relaxEdge nodeId visited) (pq, dist, prev)).2.1)
          kv.1 maxsize < maxsize) := by
  intro edges
  induction edges with
  | nil => intro pq dist prev hd hp; exact ⟨hd, hp⟩
  | cons e es ih =>
    intro pq dist prev hd hp
    obtain ⟨hd', hp'⟩ := relaxEdge_inv nodeId visited pq dist prev hd hp e
    simpa using ih (relaxEdge nodeId visited (pq, dist, prev) e).1
      (relaxEdge nodeId visited (pq, dist, prev) e).2.1
      (relaxEdge nodeId visited (pq, dist, prev) e).2.2 hd' hp'

theorem dijkstraLoop_inv (g : Graph) :
    ∀ (fuel : Nat) (pq : List HItem) (visited : List String)
      (dist : List (String × Nat)) (prev : List (String × String))
      {out : List (String × Nat) × List (String × String)},
      (∀ kv ∈ dist, kv.2 ≤ maxsize) →
      (∀ kv ∈ prev, aGetD dist kv.1 maxsize < maxsize) →
      dijkstraLoop g fuel pq visited dist prev = some out →
      (∀ kv ∈ out.1, kv.2 ≤ maxsize) ∧
      (∀ kv ∈ out.2, aGetD out.1 kv.1 maxsize < maxsize) := by
  intro fuel
  induction fuel with
  | zero =>
    intro pq visited dist prev out _ _ h
    simp [dijkstraLoop] at h
  | succ f ih =>
    intro pq visited dist prev out hd hp h
    rw [dijkstraLoop] at h
    cases hpop : heappop pq with
    | none =>
      rw [hpop] at h
      simp only [Option.some_inj] at h
      rw [← h]
      exact ⟨hd, hp⟩
    | some popped =>
      rw [hpop] at h
      obtain ⟨hd', hp'⟩ := foldl_relax_inv popped.1.2
        (if popped.1.2 ∈ visited then visited else visited ++ [popped.1.2])
        (nodeEdges g popped.1.2) popped.2 dist prev hd hp
      exact ih _ _ _ _ hd' hp' h

theorem heap_no_prev_of_max {g : Graph} {src : String} {fuel : Nat}
    {dist : List (String × Nat)} {prev : List (String × String)}
    (h : computeDijkstraUsingHeap g src fuel = some (dist, prev))
    {e : String} (hmax : aGetD dist e maxsize = maxsize) :
    aGet prev e = none := by
  have hinv := dijkstraLoop_inv g fuel (heappush [] (0, src)) [] [(src, 0)] []
    (by
      intro kv hkv
      rw [List.mem_singleton] at hkv
      rw [hkv]
      unfold maxsize
      omega)
    (by intro kv hkv; simp at hkv) h
  cases hp : aGet prev e with
  | none => rfl
  | some p =>
    have := hinv.2 (e, p) (mem_of_aGet_eq_some hp)
    rw [hmax] at this
    exact absurd this (lt_irrefl _)

theorem yenKLoop_singleton (fuel : Nat) (dist : List (String × Nat)) (e : String)
    (iters : Nat) (g : Graph) (c : Nat) :
    yenKLoop fuel dist e iters g [⟨c, [e]⟩] [] = some (g, [⟨c, [e]⟩]) := by
  cases iters with
  | zero => rfl
  | succ m => rfl

/-- C6 (amended): when the destination is unreachable from the source —
the heap solver's distance mapping still holds the `sys.maxsize`
sentinel at the destination — `compute_yen_ksp` returns the store
unchanged together with the initial accepted list `A` as-is: a single
entry whose cost is the sentinel and whose path is the one-node
sequence `[dst]` (not the empty path: `path()` always seeds the route
with the destination, so the empty-path early return never fires; the
first Yen iteration then finds no spur positions and breaks with `B`
empty). -/
theorem c6_yen_unreachable (g : Graph) (fuel : Nat) (s e : String) (max_k : Nat)
    (dist : List (String × Nat)) (prev : List (String × String))
    (hd : computeDijkstraUsingHeap g s fuel = some (dist, prev))
    (hu : aGetD dist e maxsize = maxsize) :
    g.compute_yen_ksp fuel s e max_k = some (g, [⟨maxsize, [e]⟩]) := by
  have hprev : aGet prev e = none := heap_no_prev_of_max hd hu
  have hfuel : fuel ≠ 0 := by
    intro h0
    rw [h0] at hd
    simp [computeDijkstraUsingHeap, dijkstraLoop] at hd
  obtain ⟨f, rfl⟩ : ∃ f, fuel = f + 1 := ⟨fuel - 1, by omega⟩
  have hpath : Graph.path prev s e (f + 1) = some [e] := by
    unfold Graph.path pathWalk
    rw [hprev]
    rfl
  have step1 : g.compute_yen_ksp (f + 1) s e max_k
      = (Graph.path prev s e (f + 1)).bind (fun p0 =>
          if p0.isEmpty then some (g, [⟨aGetD dist e maxsize, p0⟩])
          else yenKLoop (f + 1) dist e (max_k - 1) g
            [⟨aGetD dist e maxsize, p0⟩] []) := by
    unfold Graph.compute_yen_ksp
    rw [hd]
    rfl
  rw [step1, hpath]
  show yenKLoop (f + 1) dist e (max_k - 1) g [⟨aGetD dist e maxsize, [e]⟩] []
    = some (g, [⟨maxsize, [e]⟩])
  rw [hu]
  exact yenKLoop_singleton (f + 1) dist e (max_k - 1) g maxsize

/-- Witness for C6 (amended): two isolated nodes. -/
theorem c6_yen_unreachable_witness :
    gTwoIso.compute_yen_ksp 100 "a" "b" 5 = some (gTwoIso, [⟨maxsize, ["b"]⟩]) :=
  c6_yen_unreachable gTwoIso 100 "a" "b" 5 c6Run.1 c6Run.2 (by rfl) (by rfl)

/-- Counterexample for C6: on two isolated nodes the returned single
entry's path is `[b]` — the destination alone — not the empty
sequence. -/
theorem c6_counterexample :
    gTwoIso.compute_yen_ksp 100 "a" "b" 2 = some (gTwoIso, [⟨maxsize, ["b"]⟩]) ∧
    ¬ (([⟨maxsize, ["b"]⟩] : List PathEntry).map PathEntry.path = [[]]) :=
  ⟨by rfl, by decide⟩
